import Mathlib

/-!
Verification development for the storage-management layer of ffplayout
(`ffplayout-api/src/utils/files.rs`).

Strings are modelled as `List Char` (`Str`), so that every operation of the
Rust code (`str::split`, `str::replace`, `str::strip_prefix`,
`RelativePath::normalize`, `Path::join`, `Path::starts_with`, ...) is a
structurally recursive, kernel-computable Lean function.  Filesystem state is
modelled as an association list from canonical component lists to nodes, and
every operation of the API layer additionally returns the trace of filesystem
accesses it performs.  External collaborators (channel configuration, the
media probe, filename sanitizing, random name generation) are parameters.
-/

namespace FF

/-- Characters of a Rust string. -/
abbrev Str := List Char

/-- Conversion from a Lean string literal. -/
def str (s : String) : Str := s.data

/-! ### Rust `str` primitives -/

/-- `str::split(sep)`: splits on every occurrence of `sep`, keeping empty pieces. -/
def splitOn (sep : Char) : Str → List Str
  | [] => [[]]
  | c :: rest =>
    if c = sep then [] :: splitOn sep rest
    else
      match splitOn sep rest with
      | [] => [[c]]
      | p :: ps => (c :: p) :: ps

/-- Joins components with a `'/'` separator (inverse of `splitOn '/'`). -/
def joinSlash : List Str → Str
  | [] => []
  | [c] => c
  | c :: cs => c ++ '/' :: joinSlash cs

/-- `str::starts_with(pre)`. -/
def strStarts (pre s : Str) : Bool := pre.isPrefixOf s

/-- `str::strip_prefix(pre)`. -/
def stripPre (pre s : Str) : Option Str :=
  if pre.isPrefixOf s then some (s.drop pre.length) else none

/-- `str::strip_prefix('/')`. -/
def stripSlash : Str → Option Str
  | '/' :: rest => some rest
  | _ => none

/-- `str::replace("../", "")`: removes every occurrence of `../`, scanning
left to right; matches are found in the original string (Rust finds all
matches via `match_indices` before replacing, so removals never create new
matches). The pattern has no self-overlap, hence scanning left to right and
skipping past each match removes exactly the occurrences of the original. -/
def sdds : Str → Str
  | [] => []
  | [a] => [a]
  | [a, b] => [a, b]
  | a :: b :: c :: rest =>
    if a = '.' ∧ b = '.' ∧ c = '/' then sdds rest
    else a :: sdds (b :: c :: rest)

/-! ### The `relative_path` crate: `RelativePath::new(s).normalize()` -/

/-- The `..` component. -/
def dotdot : Str := ['.', '.']

/-- Components of a `RelativePath`: split on `'/'`, dropping empty pieces and
`.` components (these are irrelevant to `normalize`). -/
def rpComps (s : Str) : List Str :=
  (splitOn '/' s).filter (fun c => decide (c ≠ [] ∧ c ≠ ['.']))

/-- Stack-based resolution of `..` components: a `..` pops a preceding normal
component and is kept when there is nothing left to pop.  The accumulator
holds the processed components in reverse order. -/
def normAux : List Str → List Str → List Str
  | acc, [] => acc.reverse
  | acc, c :: cs =>
    if c = dotdot then
      match acc with
      | [] => normAux [dotdot] cs
      | t :: ts => if t = dotdot then normAux (c :: acc) cs else normAux ts cs
    else normAux (c :: acc) cs

/-- `RelativePath::new(s).normalize().to_string()`. -/
def rpNormalize (s : Str) : Str := joinSlash (normAux [] (rpComps s))

/-! ### Rust `Path` (unix) -/

/-- Marker for the `RootDir` component (cannot collide with a real component,
which never contains `'/'`). -/
def rootMarker : Str := ['/']

/-- `Path::components()` on unix: a leading `/` yields `RootDir`; empty and
`.` pieces are dropped, except that a relative path beginning with a `.`
piece keeps it as `CurDir`. -/
def pathComps (s : Str) : List Str :=
  let pieces := (splitOn '/' s).filter (fun c => decide (c ≠ []))
  let norm := pieces.filter (fun c => decide (c ≠ ['.']))
  if s.head? = some '/' then rootMarker :: norm
  else if pieces.head? = some ['.'] then ['.'] :: norm
  else norm

/-- `Path::file_name().unwrap_or_default()`: the last component when it is a
normal one, and the empty string otherwise. -/
def fileName (s : Str) : Str :=
  match (pathComps s).getLast? with
  | some c => if c = rootMarker ∨ c = dotdot ∨ c = ['.'] then [] else c
  | none => []

/-- `Path::parent()`: the path without its final component, `none` when there
is no final non-root component.  The result is rebuilt from components. -/
def joinComps : List Str → Str
  | [] => []
  | c :: cs => if c = rootMarker then '/' :: joinSlash cs else joinSlash (c :: cs)

/-- `Path::parent()`. -/
def parentStr (s : Str) : Option Str :=
  match pathComps s with
  | [] => none
  | [c] => if c = rootMarker then none else some []
  | cs => some (joinComps cs.dropLast)

/-- `Path::join(rel)` / `PathBuf::push`: an absolute argument replaces the
path; otherwise a separator is inserted when needed. -/
def pathJoin (base rel : Str) : Str :=
  if rel.head? = some '/' then rel
  else if base = [] then rel
  else if base.getLast? = some '/' then base ++ rel
  else base ++ '/' :: rel

/-- `p.starts_with(pre)` on `Path`: component-wise prefix. -/
def pathStarts (p pre : Str) : Bool := (pathComps pre).isPrefixOf (pathComps p)

/-! ### The allow-list and `norm_abs_path` -/

/-- `FOLDER_WHITELIST` from the source. -/
def FOLDER_WHITELIST : List Str :=
  [str "/media", str "/mnt", str "/playlists", str "/tv-media",
   str "/usr/share/ffplayout", str "/var/lib/ffplayout"]

/-- The allow-list check on a component list: some allow-listed prefix or the
home directory is a component-wise prefix. -/
def whitelistOkC (home : Str) (pc : List Str) : Bool :=
  FOLDER_WHITELIST.any (fun f => (pathComps f).isPrefixOf pc)
    || (pathComps home).isPrefixOf pc

/-- The allow-list check of `norm_abs_path` on a path string. -/
def whitelistOk (home p : Str) : Bool := whitelistOkC home (pathComps p)

/-- `ServiceError` (`utils/errors.rs`), restricted to the variants used by
`files.rs`; `Payload` stands for the propagated multipart/stream errors. -/
inductive ServiceError where
  | Forbidden (msg : Str)
  | BadRequest (msg : Str)
  | Conflict (msg : Str)
  | InternalServerError
  | IoError (msg : Str)
  | Payload (msg : Str)
  deriving DecidableEq, Repr

deriving instance DecidableEq for Except

/-- The normalized root string: `RelativePath::new(root).normalize()` with
`../` occurrences removed (`path_relative` in the source). -/
def pathRel (root : Str) : Str := sdds (rpNormalize root)

/-- The relative remainder (`source_relative`) computed by `norm_abs_path`:
the normalized input with `../` removed, relativized against the normalized
root (rooted branch) or against the root directory name (bare branch). -/
def nasRemainder (root input : Str) : Str :=
  let pr := pathRel root
  let sr0 := sdds (rpNormalize input)
  if strStarts root input || strStarts pr sr0 then
    ((stripPre pr sr0).bind stripSlash).getD []
  else
    ((stripPre (fileName root) sr0).bind stripSlash).getD sr0

/-- `norm_abs_path(root_path, input_path)`: returns the joined absolute path,
the root directory name (`path_suffix`) and the relative remainder
(`source_relative`), or `Forbidden` when the allow-list check fails.
`home` is the runtime value of `HOME_DIR`. -/
def normAbsPath (home root input : Str) :
    Except ServiceError (Str × Str × Str) :=
  let sr := nasRemainder root input
  let p := pathJoin root sr
  if whitelistOk home p then .ok (p, fileName root, sr)
  else .error (.Forbidden (str "Access forbidden: Folder cannot be opened."))

/-! ### Filesystem resolution (what a path means on disk) -/

/-- Resolution of a component list against the real filesystem semantics of
`..` and `.` (no symlinks): `..` removes the preceding component and is
absorbed at the root. -/
def resolveAux : List Str → List Str → List Str
  | acc, [] => acc.reverse
  | acc, c :: cs =>
    if c = dotdot then
      match acc with
      | [] => resolveAux [] cs
      | t :: ts => if t = rootMarker then resolveAux acc cs else resolveAux ts cs
    else if c = ['.'] then resolveAux acc cs
    else resolveAux (c :: acc) cs

/-- Resolved location of a component list. -/
def resolveComps (cs : List Str) : List Str := resolveAux [] cs

/-! ### Filesystem model

Filesystem state is an association list from canonical (resolved) component
lists to nodes.  Operations look paths up by their resolved components,
mirroring what the kernel does with `..` segments (no symlinks). -/

/-- A filesystem node. -/
inductive FNode where
  | file (content : List Nat)
  | dir
  deriving DecidableEq, Repr

/-- Filesystem state. -/
abbrev FS := List (List Str × FNode)

/-- Canonical key of a path string. -/
def canon (s : Str) : List Str := resolveComps (pathComps s)

/-- Node stored at a canonical key. -/
def fsLookup (fs : FS) (k : List Str) : Option FNode :=
  match fs.find? (fun e => decide (e.1 = k)) with
  | some e => some e.2
  | none => none

/-- `is_file` on a canonical key. -/
def fsIsFileK (fs : FS) (k : List Str) : Bool :=
  match fsLookup fs k with
  | some (.file _) => true
  | _ => false

/-- `is_dir` on a canonical key. -/
def fsIsDirK (fs : FS) (k : List Str) : Bool :=
  match fsLookup fs k with
  | some .dir => true
  | _ => false

/-- `exists` on a canonical key. -/
def fsExistsK (fs : FS) (k : List Str) : Bool := (fsLookup fs k).isSome

/-- `Path::is_file` through the filesystem. -/
def fsIsFile (fs : FS) (p : Str) : Bool := fsIsFileK fs (canon p)

/-- `Path::is_dir` through the filesystem. -/
def fsIsDir (fs : FS) (p : Str) : Bool := fsIsDirK fs (canon p)

/-- `Path::exists` through the filesystem. -/
def fsExists (fs : FS) (p : Str) : Bool := fsExistsK fs (canon p)

/-- True when some strictly deeper entry lives under the key (the directory
is not empty). -/
def fsHasChild (fs : FS) (k : List Str) : Bool :=
  fs.any (fun e => decide (e.1 ≠ k) && k.isPrefixOf e.1)

/-- Create or overwrite the node at a key. -/
def fsSet (fs : FS) (k : List Str) (n : FNode) : FS :=
  (k, n) :: fs.filter (fun e => decide (e.1 ≠ k))

/-- Remove the node at a key. -/
def fsRemove (fs : FS) (k : List Str) : FS :=
  fs.filter (fun e => decide (e.1 ≠ k))

/-- Append bytes to the file at a key (sequential writes on an open handle). -/
def fsAppend (fs : FS) (k : List Str) (chunk : List Nat) : FS :=
  match fsLookup fs k with
  | some (.file c) => fsSet fs k (.file (c ++ chunk))
  | _ => fs

/-- The parent key exists as a directory (file creation requires it); the
filesystem root always exists. -/
def parentOkK (fs : FS) (k : List Str) : Bool :=
  decide (k.dropLast = [rootMarker]) || fsIsDirK fs k.dropLast

/-- One recorded filesystem access of an operation. -/
inductive FsOp where
  | readDir (p : Str)
  | statDir (p : Str)
  | probeOp (p : Str)
  | createFile (p : Str)
  | removeFileOp (p : Str)
  | removeDirOp (p : Str)
  | createDirAllOp (p : Str)
  | renameOp (src tgt : Str)
  | copyOp (src tgt : Str)
  deriving DecidableEq, Repr

/-- The path strings an access touches. -/
def opPaths : FsOp → List Str
  | .readDir p => [p]
  | .statDir p => [p]
  | .probeOp p => [p]
  | .createFile p => [p]
  | .removeFileOp p => [p]
  | .removeDirOp p => [p]
  | .createDirAllOp p => [p]
  | .renameOp s t => [s, t]
  | .copyOp s t => [s, t]

/-! ### `upload`

One multipart field: an optional client filename, the random name generated
for this field, and the stream of chunk reads (a read either yields bytes or
fails with an error message). -/

/-- `str::contains(pat)`: substring test. -/
def strInfix (pat : Str) : Str → Bool
  | [] => pat.isPrefixOf []
  | c :: rest => pat.isPrefixOf (c :: rest) || strInfix pat rest

/-- One multipart field of an upload request. -/
structure UploadPart where
  filename : Option Str
  rand : Str
  chunks : List (Except Str (List Nat))
  deriving DecidableEq, Repr

/-- Target resolution of `upload` for one field: the sanitized client
filename or the random name; with `abs_path` the caller path is used
verbatim, otherwise the destination is sandboxed by `valid_path` (which
requires the sandboxed directory to exist) and joined with the filename. -/
def uploadTarget (home root : Str) (sanitize : Str → Str) (fs : FS)
    (path : Str) (absPath : Bool) (p : UploadPart) :
    (Except ServiceError Str) × List FsOp :=
  let fname := match p.filename with
    | some f => sanitize f
    | none => p.rand
  if absPath then (.ok path, [])
  else
    match normAbsPath home root path with
    | .error e => (.error e, [])
    | .ok (tp, _, _) =>
      if fsIsDir fs tp then (.ok (pathJoin tp fname), [.statDir tp])
      else (.error (.BadRequest (str "Target folder not exists!")), [.statDir tp])

/-- The chunk-writing loop of `upload`: each successful read is appended to
the open file; on a read error the partially written file is removed only
when the error message contains `stream is incomplete`, and the error is
propagated either way. -/
def runChunks : FS → Str → List (Except Str (List Nat)) →
    (Except ServiceError Unit) × FS × List FsOp
  | fs, _, [] => (.ok (), fs, [])
  | fs, fp, .ok chunk :: rest => runChunks (fsAppend fs (canon fp) chunk) fp rest
  | fs, fp, .error m :: _ =>
    if strInfix (str "stream is incomplete") m then
      (.error (.Payload m), fsRemove fs (canon fp), [.removeFileOp fp])
    else
      (.error (.Payload m), fs, [])

/-- The field loop of `upload`: resolve the target, fail with `Conflict` when
a file already exists there, create the file, stream the chunks, continue
with the next field. -/
def uploadParts (home root : Str) (sanitize : Str → Str) (path : Str)
    (absPath : Bool) : FS → List UploadPart →
    (Except ServiceError Unit) × FS × List FsOp
  | fs, [] => (.ok (), fs, [])
  | fs, p :: ps =>
    match uploadTarget home root sanitize fs path absPath p with
    | (.error e, tr) => (.error e, fs, tr)
    | (.ok fp, tr) =>
      if fsIsFile fs fp then
        (.error (.Conflict (str "Target already exists!")), fs, tr)
      else if fsIsDirK fs (canon fp) || !parentOkK fs (canon fp) then
        (.error (.IoError (str "File create failed!")), fs, tr ++ [.createFile fp])
      else
        match runChunks (fsSet fs (canon fp) (.file [])) fp p.chunks with
        | (.ok _, fs2, tr2) =>
          match uploadParts home root sanitize path absPath fs2 ps with
          | (r, fs3, tr3) => (r, fs3, tr ++ FsOp.createFile fp :: (tr2 ++ tr3))
        | (.error e, fs2, tr2) => (.error e, fs2, tr ++ FsOp.createFile fp :: tr2)

/-- `upload(conn, id, _size, payload, path, abs_path)`. -/
def upload (home root : Str) (sanitize : Str → Str) (path : Str)
    (absPath : Bool) (parts : List UploadPart) (fs : FS) :
    (Except ServiceError Unit) × FS × List FsOp :=
  uploadParts home root sanitize path absPath fs parts

/-- Repeated append of chunks (the state reached by successful reads). -/
def fsAppendAll : FS → List Str → List (List Nat) → FS
  | fs, _, [] => fs
  | fs, k, c :: cs => fsAppendAll (fsAppend fs k c) k cs

/-! ### `rename_file`, `remove_file_or_folder`, `create_directory` -/

/-- `MoveObject`: request and result of a move (the result carries only the
final path components). -/
structure MoveObject where
  source : Str
  target : Str
  deriving DecidableEq, Repr

/-- Content of the file at a path (empty when absent). -/
def fsContent (fs : FS) (p : Str) : List Nat :=
  match fsLookup fs (canon p) with
  | some (.file c) => c
  | _ => []

/-- Move a subtree to a new key. -/
def fsMove (fs : FS) (sk tk : List Str) : FS :=
  fs.map (fun e => if sk.isPrefixOf e.1 then (tk ++ e.1.drop sk.length, e.2) else e)

/-- `Path::parent()` as components (`None` for the root or an empty path). -/
def parentComps (s : Str) : Option (List Str) :=
  match pathComps s with
  | [] => none
  | [c] => if c = rootMarker then none else some []
  | cs => some cs.dropLast

/-- `copy_and_delete`: `fs::copy` (overwriting the target, failing when the
source is not a file) followed by `fs::remove_file` on the source. -/
def copyAndDelete (fs : FS) (source target : Str) :
    (Except ServiceError MoveObject) × FS × List FsOp :=
  if fsIsFile fs source then
    (.ok ⟨fileName source, fileName target⟩,
     fsRemove (fsSet fs (canon target) (.file (fsContent fs source))) (canon source),
     [.copyOp source target, .removeFileOp source])
  else
    (.error (.BadRequest (str "Error in file copy!")), fs, [.copyOp source target])

/-- The `rename` helper: attempt `fs::rename` and fall back to
`copy_and_delete` when the syscall fails; `renameFails` models which rename
syscalls fail (cross-device links, permissions, ...). -/
def renameHelper (renameFails : Str → Str → Bool) (fs : FS) (source target : Str) :
    (Except ServiceError MoveObject) × FS × List FsOp :=
  if renameFails source target then
    match copyAndDelete fs source target with
    | (r, fs1, tr) => (r, fs1, FsOp.renameOp source target :: tr)
  else
    (.ok ⟨fileName source, fileName target⟩,
     fsMove fs (canon source) (canon target), [.renameOp source target])

/-- `rename_file(conn, id, move_object)`. -/
def renameFile (home root : Str) (renameFails : Str → Str → Bool)
    (moSource moTarget : Str) (fs : FS) :
    (Except ServiceError MoveObject) × FS × List FsOp :=
  match normAbsPath home root moSource with
  | .error e => (.error e, fs, [])
  | .ok (sourcePath, _, _) =>
    match normAbsPath home root moTarget with
    | .error e => (.error e, fs, [])
    | .ok (targetPath0, _, _) =>
      if !fsExists fs sourcePath then
        (.error (.BadRequest (str "Source file not exist!")), fs, [])
      else if (fsIsDir fs sourcePath || fsIsFile fs sourcePath)
          && decide (parentComps sourcePath = some (pathComps targetPath0)) then
        renameHelper renameFails fs sourcePath targetPath0
      else
        let targetPath :=
          if fsIsDir fs targetPath0 then pathJoin targetPath0 (fileName sourcePath)
          else targetPath0
        if fsIsFile fs targetPath then
          (.error (.BadRequest (str "Target file already exists!")), fs, [])
        else if fsIsFile fs sourcePath && (parentStr targetPath).isSome then
          renameHelper renameFails fs sourcePath targetPath
        else
          (.error .InternalServerError, fs, [])

/-- `remove_file_or_folder(conn, id, source_path)`: sandbox, fail when the
path does not exist, `remove_dir` for directories (failing when non-empty),
`remove_file` for files. -/
def removeFileOrFolder (home root : Str) (input : Str) (fs : FS) :
    (Except ServiceError Unit) × FS × List FsOp :=
  match normAbsPath home root input with
  | .error e => (.error e, fs, [])
  | .ok (source, _, _) =>
    if !fsExists fs source then
      (.error (.BadRequest (str "Source does not exists!")), fs, [])
    else if fsIsDir fs source then
      if fsHasChild fs (canon source) then
        (.error (.BadRequest (str "Delete folder failed! (Folder must be empty)")),
         fs, [.removeDirOp source])
      else
        (.ok (), fsRemove fs (canon source), [.removeDirOp source])
    else if fsIsFile fs source then
      (.ok (), fsRemove fs (canon source), [.removeFileOp source])
    else
      (.error .InternalServerError, fs, [])

/-- The non-empty key prefixes of a key, shortest first. -/
def keyPrefixes (k : List Str) : List (List Str) :=
  (List.range k.length).map (fun i => k.take (i + 1))

/-- `create_directory(conn, id, path_obj)`: sandbox, then `create_dir_all`
(create every missing ancestor; fail when some prefix exists as a file). -/
def createDirectory (home root : Str) (input : Str) (fs : FS) :
    (Except ServiceError Unit) × FS × List FsOp :=
  match normAbsPath home root input with
  | .error e => (.error e, fs, [])
  | .ok (p, _, _) =>
    if (keyPrefixes (canon p)).any (fsIsFileK fs) then
      (.error (.BadRequest (str "File exists!")), fs, [.createDirAllOp p])
    else
      (.ok (),
       (keyPrefixes (canon p)).foldl
         (fun acc q => if fsExistsK acc q then acc else fsSet acc q .dir) fs,
       [.createDirAllOp p])

/-! ### Natural lexical comparison (the `lexical-sort` crate) and `browser` -/

/-- Numeric value of a digit run. -/
def natValue (s : Str) : Nat := s.foldl (fun a c => a * 10 + (c.toNat - '0'.toNat)) 0

/-- Fuelled core of `natural_lexical_cmp`: runs of ascii digits compare by
numeric value, other characters compare case-insensitively, and ties
continue after the compared portion. -/
def natCmpF : Nat → Str → Str → Ordering
  | 0, _, _ => .eq
  | _ + 1, [], [] => .eq
  | _ + 1, [], _ :: _ => .lt
  | _ + 1, _ :: _, [] => .gt
  | fuel + 1, a :: as, b :: bs =>
    if a.isDigit && b.isDigit then
      let va := natValue ((a :: as).takeWhile Char.isDigit)
      let vb := natValue ((b :: bs).takeWhile Char.isDigit)
      if va < vb then .lt
      else if vb < va then .gt
      else natCmpF fuel ((a :: as).dropWhile Char.isDigit)
             ((b :: bs).dropWhile Char.isDigit)
    else
      if a.toLower < b.toLower then .lt
      else if b.toLower < a.toLower then .gt
      else natCmpF fuel as bs

/-- `natural_lexical_cmp`. -/
def natCmp (a b : Str) : Ordering := natCmpF (a.length + b.length + 1) a b

/-- Insertion step of a stable sort by `natCmp`. -/
def insertNat (x : Str) : List Str → List Str
  | [] => [x]
  | y :: ys => if natCmp x y = .gt then y :: insertNat x ys else x :: y :: ys

/-- `path_sort(natural_lexical_cmp)`. -/
def sortNat (l : List Str) : List Str := l.foldr insertNat []

/-- Lowercasing (`str::to_lowercase`, ascii range). -/
def lowerStr (s : Str) : Str := s.map Char.toLower

/-- Container metadata returned by the probe (`MediaProbe.format`). -/
structure ProbeFmt where
  duration : Option Str
  deriving DecidableEq, Repr

/-- One listed media file; the `f64` duration is modelled as a rational. -/
structure VideoFile where
  name : Str
  duration : ℚ
  deriving DecidableEq, Repr

/-- The populated `PathObject` a browse call returns. -/
structure BrowseRes where
  source : Str
  parent : Str
  parentFolders : List Str
  folders : List Str
  files : List VideoFile
  foldersOnly : Bool
  deriving DecidableEq, Repr

/-- Result of the pre-probe stage of `browser`: everything read from disk
before sorting and probing. -/
structure BrowseData where
  path : Str
  parentPath : Str
  pc : Str
  suffix : Str
  rawParentFolders : List Str
  rawFolders : List Str
  rawFiles : List Str
  trace : List FsOp
  deriving DecidableEq, Repr

/-- Immediate children of a directory key: name and node, in filesystem
order (`read_dir` order is unspecified; the code sorts afterwards). -/
def childEntries (fs : FS) (k : List Str) : List (Str × FNode) :=
  fs.filterMap (fun e =>
    match e.1.getLast? with
    | some nm => if e.1.dropLast = k then some (nm, e.2) else none
    | none => none)

/-- Extension filter of `browser`: the extension of the child path,
lowercased, must be in the merged extension list. -/
def extOk (exts : List Str) (fileExt : Str → Option Str) (cp : Str) : Bool :=
  match fileExt cp with
  | some e => decide (lowerStr e ∈ exts)
  | none => false

/-- The pre-probe stage of `browser`: sandbox the source, determine the
parent directory, list the parent (when the target is not its own parent and
`folders_only` is off), list the target directory, drop hidden entries
(paths containing `/.`), classify into folders and extension-filtered
files. -/
def browserPre (home root : Str) (exts : List Str) (fileExt : Str → Option Str)
    (fs : FS) (src : Str) (foldersOnly : Bool) :
    Except ServiceError BrowseData :=
  match normAbsPath home root src with
  | .error e => .error e
  | .ok (path, suffix, pc) =>
    let parentPath := if pc = [] then root else (parentStr path).getD []
    let needParents :=
      decide (pathComps path ≠ pathComps parentPath) && !foldersOnly
    if needParents && !fsIsDir fs parentPath then
      .error (.IoError (str "read parent dir failed"))
    else
      let rawParentFolders :=
        if needParents then
          (childEntries fs (canon parentPath)).filterMap (fun en =>
            match en.2 with
            | .dir => some en.1
            | _ => none)
        else []
      if !fsIsDir fs path then .error (.IoError (str "read dir failed"))
      else
        let visible := (childEntries fs (canon path)).filter (fun en =>
          !strInfix (str "/.") (pathJoin path en.1))
        let rawFolders := visible.filterMap (fun en =>
          match en.2 with
          | .dir => some en.1
          | _ => none)
        let rawFiles := visible.filterMap (fun en =>
          match en.2 with
          | .file _ =>
            if !foldersOnly && extOk exts fileExt (pathJoin path en.1) then
              some (pathJoin path en.1)
            else none
          | _ => none)
        .ok ⟨path, parentPath, pc, suffix, rawParentFolders, rawFolders, rawFiles,
             (if needParents then [FsOp.readDir parentPath] else [])
               ++ [FsOp.readDir path]⟩

/-- Per-file enrichment of `browser`: probe each file; on success the
duration is the parsed value, defaulting to `0` when the field is absent or
fails to parse; on probe error the file is dropped. -/
def enrichList (probe : Str → Except Str ProbeFmt) (parseDur : Str → Option ℚ) :
    List Str → List VideoFile :=
  List.filterMap (fun fp =>
    match probe fp with
    | .ok fmt => some ⟨fileName fp, (fmt.duration.bind parseDur).getD 0⟩
    | .error _ => none)

/-- `browser(conn, id, path_obj)`: pre-probe stage, natural sorting of
parent folders, folders and file paths, then per-file enrichment. -/
def browser (home root : Str) (exts : List Str) (fileExt : Str → Option Str)
    (probe : Str → Except Str ProbeFmt) (parseDur : Str → Option ℚ)
    (fs : FS) (src : Str) (foldersOnly : Bool) :
    (Except ServiceError BrowseRes) × List FsOp :=
  match browserPre home root exts fileExt fs src foldersOnly with
  | .error e => (.error e, [])
  | .ok d =>
    (.ok ⟨d.pc, d.suffix, sortNat d.rawParentFolders, sortNat d.rawFolders,
          enrichList probe parseDur (sortNat d.rawFiles), foldersOnly⟩,
     d.trace ++ (sortNat d.rawFiles).map FsOp.probeOp)

/-! ### Component-level view of `replace("../","")` (for the idempotence analysis) -/

/-- The string ends with the two characters `..`. -/
def endsDD : Str → Bool
  | [] => false
  | [_] => false
  | ['.', '.'] => true
  | [_, _] => false
  | _ :: rest => endsDD rest

/-- The string without its final two characters. -/
def dropDD : Str → Str
  | [] => []
  | [_] => []
  | [_, _] => []
  | a :: rest => a :: dropDD rest

/-- Effect of `replace("../","")` on a slash-joined component list: a
non-final component ending in `..` loses those two characters and the
following separator. -/
def stripJoin : List Str → Str
  | [] => []
  | [c] => c
  | c :: cs => (if endsDD c then dropDD c else c ++ ['/']) ++ stripJoin cs

/-- The component list after `replace("../","")`: components whose `..`
tail was removed merge with their successor. -/
def mergeComps : List Str → List Str
  | [] => []
  | [c] => [c]
  | c :: cs =>
    if endsDD c then
      match mergeComps cs with
      | [] => [dropDD c]
      | d :: ds => (dropDD c ++ d) :: ds
    else c :: mergeComps cs

/-- A well-formed path component: nonempty, not `.`, not `..`, no slash. -/
def CompOK (c : Str) : Prop :=
  c ≠ [] ∧ c ≠ ['.'] ∧ c ≠ dotdot ∧ '/' ∉ c

/-- A component list stable under another normalize-and-replace round:
well-formed components, none but the last ending in `..`. -/
def GoodChain : List Str → Prop
  | [] => True
  | [c] => CompOK c
  | c :: cs => CompOK c ∧ endsDD c = false ∧ GoodChain cs

/-- The pieces a relative path contributes to `Path::components()` when
joined to an absolute base: split on slashes, empty and `.` pieces
dropped. -/
def relPieces (q : Str) : List Str :=
  ((splitOn '/' q).filter (fun c => decide (c ≠ []))).filter
    (fun c => decide (c ≠ ['.']))

/-! ## MARKER: definitions above, theorems below -/


/-! ### Basic lemmas about splitting and joining -/

theorem splitOn_ne_nil (sep : Char) (s : Str) : splitOn sep s ≠ [] := by
  induction s with
  | nil => simp [splitOn]
  | cons a b ih =>
    simp only [splitOn]
    split
    · simp
    · cases hb : splitOn sep b with
      | nil => exact absurd hb ih
      | cons p ps => simp

theorem splitOn_append_sep (sep : Char) (x y : Str) :
    splitOn sep (x ++ sep :: y) = splitOn sep x ++ splitOn sep y := by
  induction x with
  | nil => simp [splitOn]
  | cons c rest ih =>
    by_cases h : c = sep
    · subst h
      simp [splitOn, ih]
    · simp only [List.cons_append, splitOn, if_neg h]
      simp only [List.append_eq]
      rw [ih]
      cases hs : splitOn sep rest with
      | nil => exact absurd hs (splitOn_ne_nil sep rest)
      | cons p ps => simp

theorem pathComps_append_slash (base : Str) (hb : base ≠ []) :
    pathComps (base ++ ['/']) = pathComps base := by
  unfold pathComps
  have hsp : splitOn '/' (base ++ ['/']) = splitOn '/' base ++ [[]] := by
    have h := splitOn_append_sep '/' base []
    simpa [splitOn] using h
  have hhd : (base ++ ['/']).head? = base.head? := by
    cases base with
    | nil => exact absurd rfl hb
    | cons a b => rfl
  rw [hsp, hhd]
  simp [List.filter_append]

theorem comps_pathJoin_nil (root : Str) :
    pathComps (pathJoin root []) = pathComps root := by
  unfold pathJoin
  simp only [List.head?_nil]
  by_cases hr : root = []
  · subst hr; simp
  · simp only [if_neg hr, reduceCtorEq, if_false]
    by_cases hl : root.getLast? = some '/'
    · simp [hl]
    · simp only [if_neg hl]
      exact pathComps_append_slash root hr


/-! ### Claim C1 -/

/-- C1: the claim fails on the code and the code contradicts its own doc
comment.  With root `/media` and input `..`, normalization leaves a bare
trailing `..` (only `../` occurrences are replaced), no prefix strips, and
the join gives `/media/..`, which passes the component-wise allow-list check
and is returned, although its resolved location is `/`, outside every
allow-listed prefix and outside the home directory. -/
theorem c1_escape_eval :
    normAbsPath (str "/home/user") (str "/media") (str "..")
        = .ok (str "/media/..", str "media", str "..")
      ∧ resolveComps (pathComps (str "/media/..")) = [rootMarker]
      ∧ whitelistOkC (str "/home/user")
          (resolveComps (pathComps (str "/media/.."))) = false := by
  decide

/-! ### Claim C8 counterexample -/

/-- C8 is false as stated: with root `/media` and input `/media/media/x`,
the first call returns remainder `media/x`, but normalizing that remainder
again strips the `media` prefix a second time and returns the different
descriptor `(/media/x, media, x)`. -/
theorem c8_counterexample :
    normAbsPath (str "/home/user") (str "/media") (str "/media/media/x")
        = .ok (str "/media/media/x", str "media", str "media/x")
      ∧ normAbsPath (str "/home/user") (str "/media") (str "media/x")
        = .ok (str "/media/x", str "media", str "x")
      ∧ (str "/media/x", str "media", str "x")
          ≠ (str "/media/media/x", str "media", str "media/x") := by
  decide

/-! ### Claim C10 -/

/-- C10: in the rooted branch (raw input starts with the raw root, or the
normalized input starts with the normalized root), when stripping the
normalized root followed by a separator fails, the remainder defaults to the
empty string and the returned absolute path equals the root itself
(component-wise, the join only appends a trailing separator). -/
theorem c10_rooted_strip_fail (home root input : Str)
    (hbr : (strStarts root input
        || strStarts (pathRel root) (sdds (rpNormalize input))) = true)
    (hstrip : (stripPre (pathRel root) (sdds (rpNormalize input))).bind stripSlash
        = none)
    (hwl : whitelistOk home (pathJoin root []) = true) :
    normAbsPath home root input = .ok (pathJoin root [], fileName root, [])
      ∧ pathComps (pathJoin root []) = pathComps root := by
  have hsr : nasRemainder root input = [] := by
    unfold nasRemainder
    simp only [pathRel] at hbr hstrip ⊢
    simp [hbr, hstrip]
  refine ⟨?_, comps_pathJoin_nil root⟩
  unfold normAbsPath
  simp [hsr, hwl]

/-- Witness for C10 at root `/media`, input `/mediaX`: the raw-prefix test
fires, the strip of `media` leaves `X` which does not start with `/`, the
remainder collapses to the empty string and the call returns the root. -/
theorem c10_witness :
    (strStarts (str "/media") (str "/mediaX")
        || strStarts (pathRel (str "/media"))
             (sdds (rpNormalize (str "/mediaX")))) = true
      ∧ (stripPre (pathRel (str "/media"))
           (sdds (rpNormalize (str "/mediaX")))).bind stripSlash = none
      ∧ whitelistOk (str "/home/user") (pathJoin (str "/media") []) = true
      ∧ (normAbsPath (str "/home/user") (str "/media") (str "/mediaX")
            = .ok (pathJoin (str "/media") [], fileName (str "/media"), [])
          ∧ pathComps (pathJoin (str "/media") [])
            = pathComps (str "/media")) :=
  ⟨by decide, by decide, by decide,
    c10_rooted_strip_fail (str "/home/user") (str "/media") (str "/mediaX")
      (by decide) (by decide) (by decide)⟩

/-! ### Lemmas for the upload claims -/

theorem find_remove_none (fs : FS) (k : List Str) :
    (fsRemove fs k).find? (fun e => decide (e.1 = k)) = none := by
  induction fs with
  | nil => rfl
  | cons e rest ih =>
    unfold fsRemove at ih ⊢
    by_cases h : e.1 = k
    · simp [List.filter, h, ih]
    · simp [List.filter, h, List.find?, ih]

theorem fsLookup_fsRemove (fs : FS) (k : List Str) :
    fsLookup (fsRemove fs k) k = none := by
  unfold fsLookup
  rw [find_remove_none]

theorem runChunks_error (fp : Str) (m : Str) (rest : List (Except Str (List Nat)))
    (hmsg : strInfix (str "stream is incomplete") m = true) :
    ∀ (oks : List (List Nat)) (fs : FS),
    runChunks fs fp (oks.map Except.ok ++ .error m :: rest)
      = (.error (.Payload m), fsRemove (fsAppendAll fs (canon fp) oks) (canon fp),
         [.removeFileOp fp]) := by
  intro oks
  induction oks with
  | nil =>
    intro fs
    simp [runChunks, hmsg, fsAppendAll]
  | cons c cs ih =>
    intro fs
    simpa [runChunks, fsAppendAll] using ih (fsAppend fs (canon fp) c)

/-! ### Claim C2 -/

/-- C2 is false as stated: a mid-stream read error whose message does not
contain `stream is incomplete` (here a connection reset) propagates without
deleting the partially written file, which still exists at the target with
the bytes written so far. -/
theorem c2_counterexample :
    (upload (str "/home/user") (str "/media") (fun s => s) (str "/media/v.mp4") true
        [⟨none, str "abc", [.ok [1], .error (str "connection reset by peer")]⟩]
        [([rootMarker, str "media"], FNode.dir)]).1
      = .error (.Payload (str "connection reset by peer"))
    ∧ fsIsFile
        (upload (str "/home/user") (str "/media") (fun s => s) (str "/media/v.mp4") true
          [⟨none, str "abc", [.ok [1], .error (str "connection reset by peer")]⟩]
          [([rootMarker, str "media"], FNode.dir)]).2.1
        (str "/media/v.mp4") = true := by
  decide

/-- C2 amended: cleanup happens exactly when the read error message contains
`stream is incomplete`; for such an error in a single-field upload whose
target resolves and whose file creation succeeds, the partial file is deleted
before the error is propagated, and no file remains at the target. -/
theorem c2_amended (home root : Str) (sanitize : Str → Str) (path : Str)
    (absPath : Bool) (p : UploadPart) (fs : FS) (fp : Str) (tr : List FsOp)
    (oks : List (List Nat)) (m : Str) (rest : List (Except Str (List Nat)))
    (htgt : uploadTarget home root sanitize fs path absPath p = (.ok fp, tr))
    (hnof : fsIsFile fs fp = false)
    (hnod : fsIsDirK fs (canon fp) = false)
    (hpar : parentOkK fs (canon fp) = true)
    (hch : p.chunks = oks.map Except.ok ++ .error m :: rest)
    (hmsg : strInfix (str "stream is incomplete") m = true) :
    (upload home root sanitize path absPath [p] fs).1 = .error (.Payload m)
      ∧ fsLookup (upload home root sanitize path absPath [p] fs).2.1 (canon fp)
          = none := by
  unfold upload uploadParts
  rw [htgt]
  simp only [hnof, Bool.false_eq_true, if_false, hnod, hpar, Bool.not_true,
    Bool.or_false, if_false]
  rw [hch, runChunks_error fp m rest hmsg]
  exact ⟨rfl, fsLookup_fsRemove _ _⟩

/-- Witness for C2 amended: a relative-destination upload whose stream fails
with an incomplete-stream error; afterwards no file exists at the target. -/
theorem c2_amended_witness :
    uploadTarget (str "/home/user") (str "/media") (fun s => s)
        [([rootMarker, str "media"], FNode.dir),
         ([rootMarker, str "media", str "clips"], FNode.dir)]
        (str "clips") false
        ⟨some (str "v.mp4"), str "abc",
         [.ok [1], .error (str "actix stream is incomplete x")]⟩
      = (.ok (str "/media/clips/v.mp4"), [.statDir (str "/media/clips")])
    ∧ ((upload (str "/home/user") (str "/media") (fun s => s) (str "clips") false
          [⟨some (str "v.mp4"), str "abc",
            [.ok [1], .error (str "actix stream is incomplete x")]⟩]
          [([rootMarker, str "media"], FNode.dir),
           ([rootMarker, str "media", str "clips"], FNode.dir)]).1
        = .error (.Payload (str "actix stream is incomplete x"))
      ∧ fsLookup
          (upload (str "/home/user") (str "/media") (fun s => s) (str "clips") false
            [⟨some (str "v.mp4"), str "abc",
              [.ok [1], .error (str "actix stream is incomplete x")]⟩]
            [([rootMarker, str "media"], FNode.dir),
             ([rootMarker, str "media", str "clips"], FNode.dir)]).2.1
          (canon (str "/media/clips/v.mp4")) = none) :=
  ⟨by decide,
    c2_amended (str "/home/user") (str "/media") (fun s => s) (str "clips") false
      ⟨some (str "v.mp4"), str "abc",
        [.ok [1], .error (str "actix stream is incomplete x")]⟩
      [([rootMarker, str "media"], FNode.dir),
       ([rootMarker, str "media", str "clips"], FNode.dir)]
      (str "/media/clips/v.mp4") [.statDir (str "/media/clips")]
      [[1]] (str "actix stream is incomplete x") []
      (by decide) (by decide) (by decide) (by decide) (by decide) (by decide)⟩

/-! ### Claim C5 -/

/-- C5: when the resolved target of the first upload field already exists as
a file, the call fails with `Conflict` before creating or writing anything,
and the filesystem (in particular the pre-existing file) is unchanged. -/
theorem c5_upload_conflict (home root : Str) (sanitize : Str → Str) (path : Str)
    (absPath : Bool) (p : UploadPart) (ps : List UploadPart) (fs : FS)
    (fp : Str) (tr : List FsOp)
    (htgt : uploadTarget home root sanitize fs path absPath p = (.ok fp, tr))
    (hfile : fsIsFile fs fp = true) :
    upload home root sanitize path absPath (p :: ps) fs
      = (.error (.Conflict (str "Target already exists!")), fs, tr) := by
  unfold upload uploadParts
  rw [htgt]
  simp [hfile]

/-- Witness for C5: uploading over an existing `/media/x.mp4` fails with
`Conflict` and leaves the filesystem untouched. -/
theorem c5_upload_conflict_witness :
    uploadTarget (str "/home/user") (str "/media") (fun s => s)
        [([rootMarker, str "media", str "x.mp4"], FNode.file [7]),
         ([rootMarker, str "media"], FNode.dir)]
        (str "/media/x.mp4") true ⟨none, str "abc", []⟩
      = (.ok (str "/media/x.mp4"), [])
    ∧ fsIsFile
        [([rootMarker, str "media", str "x.mp4"], FNode.file [7]),
         ([rootMarker, str "media"], FNode.dir)]
        (str "/media/x.mp4") = true
    ∧ upload (str "/home/user") (str "/media") (fun s => s) (str "/media/x.mp4") true
        [⟨none, str "abc", []⟩]
        [([rootMarker, str "media", str "x.mp4"], FNode.file [7]),
         ([rootMarker, str "media"], FNode.dir)]
      = (.error (.Conflict (str "Target already exists!")),
         [([rootMarker, str "media", str "x.mp4"], FNode.file [7]),
          ([rootMarker, str "media"], FNode.dir)], []) :=
  ⟨by decide, by decide,
    c5_upload_conflict (str "/home/user") (str "/media") (fun s => s)
      (str "/media/x.mp4") true ⟨none, str "abc", []⟩ []
      [([rootMarker, str "media", str "x.mp4"], FNode.file [7]),
       ([rootMarker, str "media"], FNode.dir)]
      (str "/media/x.mp4") [] (by decide) (by decide)⟩

/-! ### Small filesystem lemmas -/

theorem fsExistsK_of_isDir (fs : FS) (k : List Str) (h : fsIsDirK fs k = true) :
    fsExistsK fs k = true := by
  unfold fsIsDirK at h
  unfold fsExistsK
  cases hl : fsLookup fs k with
  | none => rw [hl] at h; exact absurd h (by simp)
  | some n => simp

theorem fsExistsK_of_isFile (fs : FS) (k : List Str) (h : fsIsFileK fs k = true) :
    fsExistsK fs k = true := by
  unfold fsIsFileK at h
  unfold fsExistsK
  cases hl : fsLookup fs k with
  | none => rw [hl] at h; exact absurd h (by simp)
  | some n => simp

theorem not_isDir_of_isFile (fs : FS) (k : List Str) (h : fsIsFileK fs k = true) :
    fsIsDirK fs k = false := by
  unfold fsIsFileK at h
  unfold fsIsDirK
  revert h
  cases fsLookup fs k with
  | none => intro h; simp at h
  | some n =>
    intro h
    cases n with
    | file c => rfl
    | dir => simp at h

/-! ### Claim C6 -/

/-- C6: behavior of delete on a sandboxed path: a missing path is a
bad-request error; a non-empty directory fails with the must-be-empty error
and the filesystem is unchanged; an empty directory or a file is removed and
the call succeeds. -/
theorem c6_delete (home root input : Str) (fs : FS) (source suf rel : Str)
    (hnorm : normAbsPath home root input = .ok (source, suf, rel)) :
    (fsExists fs source = false →
      removeFileOrFolder home root input fs
        = (.error (.BadRequest (str "Source does not exists!")), fs, []))
    ∧ (fsIsDir fs source = true → fsHasChild fs (canon source) = true →
      removeFileOrFolder home root input fs
        = (.error (.BadRequest (str "Delete folder failed! (Folder must be empty)")),
           fs, [.removeDirOp source]))
    ∧ (fsIsDir fs source = true → fsHasChild fs (canon source) = false →
      removeFileOrFolder home root input fs
        = (.ok (), fsRemove fs (canon source), [.removeDirOp source]))
    ∧ (fsIsFile fs source = true →
      removeFileOrFolder home root input fs
        = (.ok (), fsRemove fs (canon source), [.removeFileOp source])) := by
  unfold removeFileOrFolder
  rw [hnorm]
  refine ⟨fun h => ?_, fun hd hc => ?_, fun hd hc => ?_, fun hf => ?_⟩
  · have h2 : fsExistsK fs (canon source) = false := h
    simp [fsExists, h2]
  · have hd2 : fsIsDirK fs (canon source) = true := hd
    have he := fsExistsK_of_isDir fs (canon source) hd2
    simp [fsExists, fsIsDir, he, hd2, hc]
  · have hd2 : fsIsDirK fs (canon source) = true := hd
    have he := fsExistsK_of_isDir fs (canon source) hd2
    simp [fsExists, fsIsDir, he, hd2, hc]
  · have hf2 : fsIsFileK fs (canon source) = true := hf
    have he := fsExistsK_of_isFile fs (canon source) hf2
    have hnd := not_isDir_of_isFile fs (canon source) hf2
    simp [fsExists, fsIsDir, fsIsFile, he, hnd, hf2]

/-- Witness for C6 on a concrete filesystem: `/media/a` holds one file, so
deleting `a` fails with the must-be-empty error and everything remains;
deleting the file and a missing path behave as stated. -/
theorem c6_delete_witness :
    normAbsPath (str "/home/user") (str "/media") (str "a")
        = .ok (str "/media/a", str "media", str "a")
    ∧ ((fsExists
          [([rootMarker, str "media"], FNode.dir),
           ([rootMarker, str "media", str "a"], FNode.dir),
           ([rootMarker, str "media", str "a", str "x.mp4"], FNode.file [1])]
          (str "/media/a") = false →
        removeFileOrFolder (str "/home/user") (str "/media") (str "a")
            [([rootMarker, str "media"], FNode.dir),
             ([rootMarker, str "media", str "a"], FNode.dir),
             ([rootMarker, str "media", str "a", str "x.mp4"], FNode.file [1])]
          = (.error (.BadRequest (str "Source does not exists!")),
             [([rootMarker, str "media"], FNode.dir),
              ([rootMarker, str "media", str "a"], FNode.dir),
              ([rootMarker, str "media", str "a", str "x.mp4"], FNode.file [1])], []))
      ∧ (fsIsDir
            [([rootMarker, str "media"], FNode.dir),
             ([rootMarker, str "media", str "a"], FNode.dir),
             ([rootMarker, str "media", str "a", str "x.mp4"], FNode.file [1])]
            (str "/media/a") = true →
          fsHasChild
            [([rootMarker, str "media"], FNode.dir),
             ([rootMarker, str "media", str "a"], FNode.dir),
             ([rootMarker, str "media", str "a", str "x.mp4"], FNode.file [1])]
            (canon (str "/media/a")) = true →
          removeFileOrFolder (str "/home/user") (str "/media") (str "a")
              [([rootMarker, str "media"], FNode.dir),
               ([rootMarker, str "media", str "a"], FNode.dir),
               ([rootMarker, str "media", str "a", str "x.mp4"], FNode.file [1])]
            = (.error (.BadRequest
                 (str "Delete folder failed! (Folder must be empty)")),
               [([rootMarker, str "media"], FNode.dir),
                ([rootMarker, str "media", str "a"], FNode.dir),
                ([rootMarker, str "media", str "a", str "x.mp4"], FNode.file [1])],
               [.removeDirOp (str "/media/a")]))
      ∧ (fsIsDir
            [([rootMarker, str "media"], FNode.dir),
             ([rootMarker, str "media", str "a"], FNode.dir),
             ([rootMarker, str "media", str "a", str "x.mp4"], FNode.file [1])]
            (str "/media/a") = true →
          fsHasChild
            [([rootMarker, str "media"], FNode.dir),
             ([rootMarker, str "media", str "a"], FNode.dir),
             ([rootMarker, str "media", str "a", str "x.mp4"], FNode.file [1])]
            (canon (str "/media/a")) = false →
          removeFileOrFolder (str "/home/user") (str "/media") (str "a")
              [([rootMarker, str "media"], FNode.dir),
               ([rootMarker, str "media", str "a"], FNode.dir),
               ([rootMarker, str "media", str "a", str "x.mp4"], FNode.file [1])]
            = (.ok (),
               fsRemove
                 [([rootMarker, str "media"], FNode.dir),
                  ([rootMarker, str "media", str "a"], FNode.dir),
                  ([rootMarker, str "media", str "a", str "x.mp4"], FNode.file [1])]
                 (canon (str "/media/a")),
               [.removeDirOp (str "/media/a")]))
      ∧ (fsIsFile
            [([rootMarker, str "media"], FNode.dir),
             ([rootMarker, str "media", str "a"], FNode.dir),
             ([rootMarker, str "media", str "a", str "x.mp4"], FNode.file [1])]
            (str "/media/a") = true →
          removeFileOrFolder (str "/home/user") (str "/media") (str "a")
              [([rootMarker, str "media"], FNode.dir),
               ([rootMarker, str "media", str "a"], FNode.dir),
               ([rootMarker, str "media", str "a", str "x.mp4"], FNode.file [1])]
            = (.ok (),
               fsRemove
                 [([rootMarker, str "media"], FNode.dir),
                  ([rootMarker, str "media", str "a"], FNode.dir),
                  ([rootMarker, str "media", str "a", str "x.mp4"], FNode.file [1])]
                 (canon (str "/media/a")),
               [.removeFileOp (str "/media/a")]))) :=
  ⟨by decide,
    c6_delete (str "/home/user") (str "/media") (str "a")
      [([rootMarker, str "media"], FNode.dir),
       ([rootMarker, str "media", str "a"], FNode.dir),
       ([rootMarker, str "media", str "a", str "x.mp4"], FNode.file [1])]
      (str "/media/a") (str "media") (str "a") (by decide)⟩

/-! ### Claim C3 -/

/-- C3 is false as stated: moving `a/x.mp4` to `a/y.mp4` (same parent
directory, existing source file, fresh sibling target) performs the
copy-then-delete fallback when the rename syscall fails, as the trace shows.
In the code the dedicated shortcut branch fires only when the target equals
the parent directory of the source, not when source and target are
siblings, and the `rename` helper itself falls back to copy and delete on a
failed syscall. -/
theorem c3_counterexample :
    (renameFile (str "/home/user") (str "/media") (fun _ _ => true)
        (str "a/x.mp4") (str "a/y.mp4")
        [([rootMarker, str "media"], FNode.dir),
         ([rootMarker, str "media", str "a"], FNode.dir),
         ([rootMarker, str "media", str "a", str "x.mp4"], FNode.file [1])]).2.2
      = [FsOp.renameOp (str "/media/a/x.mp4") (str "/media/a/y.mp4"),
         FsOp.copyOp (str "/media/a/x.mp4") (str "/media/a/y.mp4"),
         FsOp.removeFileOp (str "/media/a/x.mp4")]
    ∧ FsOp.copyOp (str "/media/a/x.mp4") (str "/media/a/y.mp4")
        ∈ (renameFile (str "/home/user") (str "/media") (fun _ _ => true)
            (str "a/x.mp4") (str "a/y.mp4")
            [([rootMarker, str "media"], FNode.dir),
             ([rootMarker, str "media", str "a"], FNode.dir),
             ([rootMarker, str "media", str "a", str "x.mp4"], FNode.file [1])]).2.2 := by
  decide

/-- C3 amended: for an existing source file and a fresh target path (not the
parent directory of the source, not an existing directory or file, with an
existing parent), the code attempts the direct rename first, and when the
rename syscall succeeds the move is the single rename with no
copy-then-delete. -/
theorem c3_amended (home root : Str) (renameFails : Str → Str → Bool)
    (s t : Str) (fs : FS) (sp sufS relS tp sufT relT : Str)
    (hns : normAbsPath home root s = .ok (sp, sufS, relS))
    (hnt : normAbsPath home root t = .ok (tp, sufT, relT))
    (hsf : fsIsFile fs sp = true)
    (hnp : parentComps sp ≠ some (pathComps tp))
    (htd : fsIsDir fs tp = false)
    (htf : fsIsFile fs tp = false)
    (hpar : (parentStr tp).isSome = true)
    (hok : renameFails sp tp = false) :
    renameFile home root renameFails s t fs
      = (.ok ⟨fileName sp, fileName tp⟩,
         fsMove fs (canon sp) (canon tp), [.renameOp sp tp]) := by
  unfold renameFile
  rw [hns, hnt]
  have hsf2 : fsIsFileK fs (canon sp) = true := hsf
  have he := fsExistsK_of_isFile fs (canon sp) hsf2
  have htd2 : fsIsDirK fs (canon tp) = false := htd
  have htf2 : fsIsFileK fs (canon tp) = false := htf
  simp [fsExists, fsIsDir, fsIsFile, he, hsf2, htd2, htf2, hnp, hpar,
    renameHelper, hok]

/-- Witness for C3 amended: the same sibling move with a succeeding rename
syscall is the single direct rename. -/
theorem c3_amended_witness :
    normAbsPath (str "/home/user") (str "/media") (str "a/x.mp4")
        = .ok (str "/media/a/x.mp4", str "media", str "a/x.mp4")
    ∧ fsIsFile
        [([rootMarker, str "media"], FNode.dir),
         ([rootMarker, str "media", str "a"], FNode.dir),
         ([rootMarker, str "media", str "a", str "x.mp4"], FNode.file [1])]
        (str "/media/a/x.mp4") = true
    ∧ renameFile (str "/home/user") (str "/media") (fun _ _ => false)
        (str "a/x.mp4") (str "a/y.mp4")
        [([rootMarker, str "media"], FNode.dir),
         ([rootMarker, str "media", str "a"], FNode.dir),
         ([rootMarker, str "media", str "a", str "x.mp4"], FNode.file [1])]
      = (.ok ⟨fileName (str "/media/a/x.mp4"), fileName (str "/media/a/y.mp4")⟩,
         fsMove
           [([rootMarker, str "media"], FNode.dir),
            ([rootMarker, str "media", str "a"], FNode.dir),
            ([rootMarker, str "media", str "a", str "x.mp4"], FNode.file [1])]
           (canon (str "/media/a/x.mp4")) (canon (str "/media/a/y.mp4")),
         [.renameOp (str "/media/a/x.mp4") (str "/media/a/y.mp4")]) :=
  ⟨by decide, by decide,
    c3_amended (str "/home/user") (str "/media") (fun _ _ => false)
      (str "a/x.mp4") (str "a/y.mp4")
      [([rootMarker, str "media"], FNode.dir),
       ([rootMarker, str "media", str "a"], FNode.dir),
       ([rootMarker, str "media", str "a", str "x.mp4"], FNode.file [1])]
      (str "/media/a/x.mp4") (str "media") (str "a/x.mp4")
      (str "/media/a/y.mp4") (str "media") (str "a/y.mp4")
      (by decide) (by decide) (by decide) (by decide) (by decide) (by decide)
      (by decide) (by decide)⟩

/-! ### Membership through the natural sort -/

theorem mem_insertNat (a x : Str) (l : List Str) :
    a ∈ insertNat x l ↔ a = x ∨ a ∈ l := by
  induction l with
  | nil => simp [insertNat]
  | cons y ys ih =>
    unfold insertNat
    by_cases h : natCmp x y = .gt
    · simp only [h, if_true, List.mem_cons, ih]
      constructor
      · rintro (rfl | rfl | hm) <;> tauto
      · rintro (rfl | rfl | hm) <;> tauto
    · simp only [h, if_false, List.mem_cons]

theorem mem_sortNat (a : Str) (l : List Str) : a ∈ sortNat l ↔ a ∈ l := by
  induction l with
  | nil => simp [sortNat]
  | cons x xs ih =>
    have hs : sortNat (x :: xs) = insertNat x (sortNat xs) := rfl
    rw [hs, mem_insertNat]
    simp only [List.mem_cons, ih]

/-! ### Claim C7 -/

/-- C7: for files surviving the extension filter, a successful probe whose
duration is absent or fails to parse yields a listing entry with duration 0,
while a file whose probe call errors is omitted (every listed entry comes
from a file whose probe succeeded), and the browse call itself still returns
successfully with the remaining entries. -/
theorem c7_probe_handling (home root : Str) (exts : List Str)
    (fileExt : Str → Option Str) (probe : Str → Except Str ProbeFmt)
    (parseDur : Str → Option ℚ) (fs : FS) (src : Str) (fo : Bool)
    (d : BrowseData)
    (hpre : browserPre home root exts fileExt fs src fo = .ok d) :
    (browser home root exts fileExt probe parseDur fs src fo).1
      = .ok ⟨d.pc, d.suffix, sortNat d.rawParentFolders, sortNat d.rawFolders,
             enrichList probe parseDur (sortNat d.rawFiles), fo⟩
    ∧ (∀ fp fmt, fp ∈ d.rawFiles → probe fp = .ok fmt →
        fmt.duration.bind parseDur = none →
        (⟨fileName fp, 0⟩ : VideoFile)
          ∈ enrichList probe parseDur (sortNat d.rawFiles))
    ∧ (∀ v, v ∈ enrichList probe parseDur (sortNat d.rawFiles) →
        ∃ g, g ∈ d.rawFiles ∧ (∃ fmt, probe g = .ok fmt) ∧ v.name = fileName g) := by
  refine ⟨?_, ?_, ?_⟩
  · unfold browser
    rw [hpre]
  · intro fp fmt hmem hp hd
    unfold enrichList
    rw [List.mem_filterMap]
    refine ⟨fp, (mem_sortNat fp _).mpr hmem, ?_⟩
    rw [hp]
    simp [hd]
  · intro v hv
    unfold enrichList at hv
    rw [List.mem_filterMap] at hv
    obtain ⟨g, hg, hfg⟩ := hv
    refine ⟨g, (mem_sortNat g _).mp hg, ?_, ?_⟩
    · cases hpg : probe g with
      | error m => rw [hpg] at hfg; simp at hfg
      | ok fmt => exact ⟨fmt, rfl⟩
    · cases hpg : probe g with
      | error m => rw [hpg] at hfg; simp at hfg
      | ok fmt =>
        rw [hpg] at hfg
        simp only [Option.some.injEq] at hfg
        rw [← hfg]

/-- Witness for C7: a directory with two allowed files, one probing fine
with an unparseable duration (listed with duration 0) and one whose probe
errors (omitted). -/
theorem c7_probe_handling_witness :
    browserPre (str "/home/user") (str "/media") [str "mp4"]
        (fun _ => some (str "mp4"))
        [([rootMarker, str "media"], FNode.dir),
         ([rootMarker, str "media", str "clips"], FNode.dir),
         ([rootMarker, str "media", str "clips", str "b"], FNode.dir),
         ([rootMarker, str "media", str "clips", str "ok.mp4"], FNode.file [1]),
         ([rootMarker, str "media", str "clips", str "bad.mp4"], FNode.file [2])]
        (str "clips") false
      = .ok ⟨str "/media/clips", str "/media", str "clips", str "media",
             [str "clips"], [str "b"],
             [str "/media/clips/ok.mp4", str "/media/clips/bad.mp4"],
             [.readDir (str "/media"), .readDir (str "/media/clips")]⟩
    ∧ ((browser (str "/home/user") (str "/media") [str "mp4"]
          (fun _ => some (str "mp4"))
          (fun p => if p = str "/media/clips/ok.mp4" then .ok ⟨some (str "x")⟩
                    else .error (str "probe failed"))
          (fun _ => none)
          [([rootMarker, str "media"], FNode.dir),
           ([rootMarker, str "media", str "clips"], FNode.dir),
           ([rootMarker, str "media", str "clips", str "b"], FNode.dir),
           ([rootMarker, str "media", str "clips", str "ok.mp4"], FNode.file [1]),
           ([rootMarker, str "media", str "clips", str "bad.mp4"], FNode.file [2])]
          (str "clips") false).1
        = .ok ⟨str "clips", str "media", sortNat [str "clips"], sortNat [str "b"],
               enrichList
                 (fun p => if p = str "/media/clips/ok.mp4" then .ok ⟨some (str "x")⟩
                           else .error (str "probe failed"))
                 (fun _ => none)
                 (sortNat [str "/media/clips/ok.mp4", str "/media/clips/bad.mp4"]),
               false⟩
      ∧ (∀ fp fmt,
          fp ∈ [str "/media/clips/ok.mp4", str "/media/clips/bad.mp4"] →
          (fun p => if p = str "/media/clips/ok.mp4" then Except.ok (⟨some (str "x")⟩ : ProbeFmt)
                    else Except.error (str "probe failed")) fp = .ok fmt →
          fmt.duration.bind (fun _ => (none : Option ℚ)) = none →
          (⟨fileName fp, 0⟩ : VideoFile)
            ∈ enrichList
                (fun p => if p = str "/media/clips/ok.mp4" then .ok ⟨some (str "x")⟩
                          else .error (str "probe failed"))
                (fun _ => none)
                (sortNat [str "/media/clips/ok.mp4", str "/media/clips/bad.mp4"]))
      ∧ (∀ v, v ∈ enrichList
                (fun p => if p = str "/media/clips/ok.mp4" then .ok ⟨some (str "x")⟩
                          else .error (str "probe failed"))
                (fun _ => none)
                (sortNat [str "/media/clips/ok.mp4", str "/media/clips/bad.mp4"]) →
          ∃ g, g ∈ [str "/media/clips/ok.mp4", str "/media/clips/bad.mp4"]
            ∧ (∃ fmt, (fun p => if p = str "/media/clips/ok.mp4" then Except.ok (⟨some (str "x")⟩ : ProbeFmt)
                           else Except.error (str "probe failed")) g = .ok fmt)
            ∧ v.name = fileName g)) :=
  ⟨by decide,
    c7_probe_handling (str "/home/user") (str "/media") [str "mp4"]
      (fun _ => some (str "mp4"))
      (fun p => if p = str "/media/clips/ok.mp4" then .ok ⟨some (str "x")⟩
                else .error (str "probe failed"))
      (fun _ => none)
      [([rootMarker, str "media"], FNode.dir),
       ([rootMarker, str "media", str "clips"], FNode.dir),
       ([rootMarker, str "media", str "clips", str "b"], FNode.dir),
       ([rootMarker, str "media", str "clips", str "ok.mp4"], FNode.file [1]),
       ([rootMarker, str "media", str "clips", str "bad.mp4"], FNode.file [2])]
      (str "clips") false
      ⟨str "/media/clips", str "/media", str "clips", str "media",
       [str "clips"], [str "b"],
       [str "/media/clips/ok.mp4", str "/media/clips/bad.mp4"],
       [.readDir (str "/media"), .readDir (str "/media/clips")]⟩
      (by decide)⟩

/-! ### Claim C9 -/

/-- C9: the folder, parent-folder and file lists a successful browse returns
are the natural-lexical sorts of the directory listing (files sorted before
enrichment), and the comparator orders `file10, file2, file1` as
`file1, file2, file10` (digit runs compare by value). -/
theorem c9_natural_sort (home root : Str) (exts : List Str)
    (fileExt : Str → Option Str) (probe : Str → Except Str ProbeFmt)
    (parseDur : Str → Option ℚ) (fs : FS) (src : Str) (fo : Bool)
    (d : BrowseData) (res : BrowseRes)
    (hpre : browserPre home root exts fileExt fs src fo = .ok d)
    (hres : (browser home root exts fileExt probe parseDur fs src fo).1
      = .ok res) :
    (res.folders = sortNat d.rawFolders
      ∧ res.parentFolders = sortNat d.rawParentFolders
      ∧ res.files = enrichList probe parseDur (sortNat d.rawFiles))
    ∧ sortNat [str "file10", str "file2", str "file1"]
        = [str "file1", str "file2", str "file10"] := by
  refine ⟨?_, by decide⟩
  unfold browser at hres
  rw [hpre] at hres
  simp only [Except.ok.injEq] at hres
  rw [← hres]
  exact ⟨rfl, rfl, rfl⟩

/-- Witness for C9 on the concrete browse of the C7 scenario. -/
theorem c9_natural_sort_witness :
    browserPre (str "/home/user") (str "/media") [str "mp4"]
        (fun _ => some (str "mp4"))
        [([rootMarker, str "media"], FNode.dir),
         ([rootMarker, str "media", str "clips"], FNode.dir),
         ([rootMarker, str "media", str "clips", str "b"], FNode.dir),
         ([rootMarker, str "media", str "clips", str "ok.mp4"], FNode.file [1]),
         ([rootMarker, str "media", str "clips", str "bad.mp4"], FNode.file [2])]
        (str "clips") false
      = .ok ⟨str "/media/clips", str "/media", str "clips", str "media",
             [str "clips"], [str "b"],
             [str "/media/clips/ok.mp4", str "/media/clips/bad.mp4"],
             [.readDir (str "/media"), .readDir (str "/media/clips")]⟩
    ∧ ((browser (str "/home/user") (str "/media") [str "mp4"]
          (fun _ => some (str "mp4"))
          (fun _ => .error (str "probe failed"))
          (fun _ => none)
          [([rootMarker, str "media"], FNode.dir),
           ([rootMarker, str "media", str "clips"], FNode.dir),
           ([rootMarker, str "media", str "clips", str "b"], FNode.dir),
           ([rootMarker, str "media", str "clips", str "ok.mp4"], FNode.file [1]),
           ([rootMarker, str "media", str "clips", str "bad.mp4"], FNode.file [2])]
          (str "clips") false).1
        = .ok ⟨str "clips", str "media", [str "clips"], [str "b"], [], false⟩)
    ∧ (((⟨str "clips", str "media", [str "clips"], [str "b"], [], false⟩ : BrowseRes).folders
          = sortNat [str "b"]
        ∧ (⟨str "clips", str "media", [str "clips"], [str "b"], [], false⟩ : BrowseRes).parentFolders
          = sortNat [str "clips"]
        ∧ (⟨str "clips", str "media", [str "clips"], [str "b"], [], false⟩ : BrowseRes).files
          = enrichList (fun _ => .error (str "probe failed")) (fun _ => none)
              (sortNat [str "/media/clips/ok.mp4", str "/media/clips/bad.mp4"]))
      ∧ sortNat [str "file10", str "file2", str "file1"]
          = [str "file1", str "file2", str "file10"]) :=
  ⟨by decide, by decide,
    c9_natural_sort (str "/home/user") (str "/media") [str "mp4"]
      (fun _ => some (str "mp4"))
      (fun _ => .error (str "probe failed"))
      (fun _ => none)
      [([rootMarker, str "media"], FNode.dir),
       ([rootMarker, str "media", str "clips"], FNode.dir),
       ([rootMarker, str "media", str "clips", str "b"], FNode.dir),
       ([rootMarker, str "media", str "clips", str "ok.mp4"], FNode.file [1]),
       ([rootMarker, str "media", str "clips", str "bad.mp4"], FNode.file [2])]
      (str "clips") false
      ⟨str "/media/clips", str "/media", str "clips", str "media",
       [str "clips"], [str "b"],
       [str "/media/clips/ok.mp4", str "/media/clips/bad.mp4"],
       [.readDir (str "/media"), .readDir (str "/media/clips")]⟩
      ⟨str "clips", str "media", [str "clips"], [str "b"], [], false⟩
      (by decide) (by decide)⟩

/-! ### Behavior of `replace("../","")` on slash-joined components -/

theorem endsDD_cons (a x y : Char) (t : Str) :
    endsDD (a :: x :: y :: t) = endsDD (x :: y :: t) := by
  simp [endsDD]

theorem dropDD_cons (a x y : Char) (t : Str) :
    dropDD (a :: x :: y :: t) = a :: dropDD (x :: y :: t) := by
  simp [dropDD]

theorem endsDD_pair (a b : Char) :
    endsDD [a, b] = decide (a = '.' ∧ b = '.') := by
  by_cases h1 : a = '.'
  · by_cases h2 : b = '.'
    · subst h1; subst h2; rfl
    · subst h1; simp [endsDD, h2]
  · simp [endsDD, h1]

theorem sdds_cons3 (a b w : Char) (r : Str) :
    sdds (a :: b :: w :: r) =
      if a = '.' ∧ b = '.' ∧ w = '/' then sdds r else a :: sdds (b :: w :: r) :=
  rfl

theorem sdds_slash_cons (r : Str) : sdds ('/' :: r) = '/' :: sdds r := by
  cases r with
  | nil => rfl
  | cons x t =>
    cases t with
    | nil => rfl
    | cons y t2 =>
      rw [sdds_cons3, if_neg]
      rintro ⟨h, -, -⟩
      exact absurd h (by decide)

theorem sdds_one_slash (b : Char) (r : Str) :
    sdds (b :: '/' :: r) = b :: '/' :: sdds r := by
  cases r with
  | nil => rfl
  | cons w t =>
    rw [sdds_cons3, if_neg, sdds_slash_cons]
    rintro ⟨-, h, -⟩
    exact absurd h (by decide)

theorem sdds_noslash (c : Str) (hc : '/' ∉ c) : sdds c = c := by
  induction c with
  | nil => rfl
  | cons a r ih =>
    have hr : '/' ∉ r := fun h => hc (List.mem_cons_of_mem a h)
    cases r with
    | nil => rfl
    | cons b r2 =>
      cases r2 with
      | nil => rfl
      | cons w r3 =>
        rw [sdds_cons3, if_neg, ih hr]
        rintro ⟨-, -, hw⟩
        exact hc (by simp [hw])

theorem sdds_append_comp (c : Str) (r : Str) (hc : '/' ∉ c) :
    sdds (c ++ '/' :: r)
      = if endsDD c then dropDD c ++ sdds r else c ++ '/' :: sdds r := by
  induction c with
  | nil => simpa [endsDD] using sdds_slash_cons r
  | cons a c' ih =>
    have hc' : '/' ∉ c' := fun h => hc (List.mem_cons_of_mem a h)
    cases c' with
    | nil => simpa [endsDD] using sdds_one_slash a r
    | cons b c'' =>
      cases c'' with
      | nil =>
        by_cases hab : a = '.' ∧ b = '.'
        · obtain ⟨rfl, rfl⟩ := hab
          rw [show (['.', '.'] ++ '/' :: r) = '.' :: '.' :: '/' :: r from rfl,
            sdds_cons3, if_pos ⟨rfl, rfl, rfl⟩]
          rfl
        · rw [show ((a :: b :: []) ++ '/' :: r) = a :: b :: '/' :: r from rfl,
            sdds_cons3, if_neg (by rintro ⟨h1, h2, -⟩; exact hab ⟨h1, h2⟩),
            sdds_one_slash, endsDD_pair]
          simp [hab]
      | cons w c3 =>
        have hw : w ≠ '/' := fun h => hc (by simp [h])
        rw [show ((a :: b :: w :: c3) ++ '/' :: r) = a :: b :: w :: (c3 ++ '/' :: r)
            from by simp, sdds_cons3,
          if_neg (by rintro ⟨-, -, h⟩; exact hw h),
          show (b :: w :: (c3 ++ '/' :: r)) = (b :: w :: c3) ++ '/' :: r from by simp,
          ih hc', endsDD_cons, dropDD_cons]
        by_cases hE : endsDD (b :: w :: c3)
        · simp [hE]
        · simp [hE]

/-! ### Merged components of a replace round are well formed -/

theorem joinSlash_cons (c : Str) (cs : List Str) (h : cs ≠ []) :
    joinSlash (c :: cs) = c ++ '/' :: joinSlash cs := by
  cases cs with
  | nil => exact absurd rfl h
  | cons d ds => rfl

theorem sdds_joinSlash (cs : List Str) (h : ∀ c ∈ cs, '/' ∉ c) :
    sdds (joinSlash cs) = stripJoin cs := by
  induction cs with
  | nil => rfl
  | cons c cs' ih =>
    cases cs' with
    | nil => exact sdds_noslash c (h c (by simp))
    | cons d ds =>
      rw [joinSlash_cons c _ (by simp), sdds_append_comp c _ (h c (by simp)),
        ih (fun x hx => h x (List.mem_cons_of_mem c hx)),
        show stripJoin (c :: d :: ds)
          = (if endsDD c then dropDD c else c ++ ['/']) ++ stripJoin (d :: ds)
          from rfl]
      by_cases hE : endsDD c
      · simp [hE]
      · simp [hE]

theorem mergeComps_ne_nil (cs : List Str) (h : cs ≠ []) : mergeComps cs ≠ [] := by
  cases cs with
  | nil => exact absurd rfl h
  | cons c cs' =>
    cases cs' with
    | nil => simp [mergeComps]
    | cons d ds =>
      unfold mergeComps
      by_cases hE : endsDD c
      · simp only [hE, if_true]
        cases hm : mergeComps (d :: ds) with
        | nil => simp
        | cons x xs => simp
      · simp [hE]

theorem stripJoin_merge (cs : List Str) :
    stripJoin cs = joinSlash (mergeComps cs) := by
  induction cs with
  | nil => rfl
  | cons c cs' ih =>
    cases cs' with
    | nil => rfl
    | cons d ds =>
      unfold stripJoin mergeComps
      by_cases hE : endsDD c
      · simp only [hE, if_true]
        cases hm : mergeComps (d :: ds) with
        | nil => exact absurd hm (mergeComps_ne_nil _ (by simp))
        | cons x xs =>
          rw [ih, hm]
          cases xs with
          | nil => rfl
          | cons y ys =>
            rw [joinSlash_cons x (y :: ys) (by simp),
              joinSlash_cons (dropDD c ++ x) (y :: ys) (by simp)]
            simp
      · simp only [hE, Bool.false_eq_true, if_false]
        rw [ih, joinSlash_cons c (mergeComps (d :: ds)) (mergeComps_ne_nil _ (by simp))]
        simp

theorem endsDD_append2 (x d : Str) (hd : 2 ≤ d.length) :
    endsDD (x ++ d) = endsDD d := by
  induction x with
  | nil => rfl
  | cons a x' ih =>
    have hlen : 2 ≤ (x' ++ d).length := by
      simp only [List.length_append]
      omega
    obtain ⟨p, q, t, hpqt⟩ : ∃ p q t, x' ++ d = p :: q :: t := by
      cases hpd : x' ++ d with
      | nil => rw [hpd] at hlen; simp at hlen
      | cons p rest =>
        cases rest with
        | nil => rw [hpd] at hlen; simp at hlen
        | cons q t => exact ⟨p, q, t, rfl⟩
    rw [List.cons_append, hpqt, endsDD_cons, ← hpqt, ih]

theorem endsDD_single (x : Str) (w : Char) (h : endsDD (x ++ [w]) = true) :
    w = '.' := by
  induction x with
  | nil => simp [endsDD] at h
  | cons a x' ih =>
    cases x' with
    | nil =>
      rw [show ([a] ++ [w]) = [a, w] from rfl, endsDD_pair] at h
      simp at h
      exact h.2
    | cons b x'' =>
      rw [show ((a :: b :: x'') ++ [w]) = a :: ((b :: x'') ++ [w]) from rfl] at h
      obtain ⟨p, q, t, hpqt⟩ : ∃ p q t, (b :: x'') ++ [w] = p :: q :: t := by
        cases x'' with
        | nil => exact ⟨b, w, [], rfl⟩
        | cons e es =>
          cases hpd : (e :: es) ++ [w] with
          | nil => simp at hpd
          | cons q t => exact ⟨b, q, t, by simp [hpd]⟩
      rw [hpqt, endsDD_cons, ← hpqt] at h
      exact ih h

theorem mem_dropDD (s : Str) (x : Char) (h : x ∈ dropDD s) : x ∈ s := by
  induction s with
  | nil => simp [dropDD] at h
  | cons a s' ih =>
    cases s' with
    | nil => simp [dropDD] at h
    | cons b s'' =>
      cases s'' with
      | nil => simp [dropDD] at h
      | cons w t =>
        rw [dropDD_cons] at h
        rcases List.mem_cons.mp h with rfl | h2
        · simp
        · exact List.mem_cons_of_mem a (ih h2)

theorem merged_compOK (x d : Str) (hx : '/' ∉ x) (hd : CompOK d) :
    CompOK (x ++ d) := by
  refine ⟨?_, ?_, ?_, ?_⟩
  · intro h
    exact hd.1 (List.append_eq_nil.mp h).2
  · intro h
    cases x with
    | nil => exact hd.2.1 h
    | cons e es =>
      injection h with h1 h2
      exact hd.1 (List.append_eq_nil.mp h2).2
  · intro h
    cases x with
    | nil => exact hd.2.2.1 h
    | cons e es =>
      injection h with h1 h2
      cases es with
      | nil => exact hd.2.1 h2
      | cons f fs =>
        injection h2 with h3 h4
        exact hd.1 (List.append_eq_nil.mp h4).2
  · intro hmem
    rcases List.mem_append.mp hmem with h | h
    · exact hx h
    · exact hd.2.2.2 h

theorem merged_endsDD_false (x d : Str) (hd : CompOK d) (hdE : endsDD d = false) :
    endsDD (x ++ d) = false := by
  cases d with
  | nil => exact absurd rfl hd.1
  | cons v d' =>
    cases d' with
    | nil =>
      have hv : v ≠ '.' := fun h => hd.2.1 (by rw [h])
      by_contra hE
      rw [Bool.not_eq_false] at hE
      exact hv (endsDD_single x v hE)
    | cons w d'' =>
      rw [endsDD_append2 x _ (by simp)]
      exact hdE

theorem goodChain_head (x : Str) (xs : List Str) (h : GoodChain (x :: xs)) :
    CompOK x := by
  cases xs with
  | nil => exact h
  | cons y ys => exact h.1

theorem goodChain_cons_iff (c : Str) (cs : List Str) (h : cs ≠ []) :
    GoodChain (c :: cs) ↔ CompOK c ∧ endsDD c = false ∧ GoodChain cs := by
  cases cs with
  | nil => exact absurd rfl h
  | cons d ds => exact Iff.rfl

theorem merge_goodChain (ns : List Str) (h : ∀ c ∈ ns, CompOK c) :
    GoodChain (mergeComps ns) := by
  induction ns with
  | nil => trivial
  | cons c cs ih =>
    have hc : CompOK c := h c (by simp)
    cases cs with
    | nil => exact hc
    | cons d ds =>
      have htail := ih (fun x hx => h x (List.mem_cons_of_mem c hx))
      unfold mergeComps
      by_cases hE : endsDD c
      · simp only [hE, if_true]
        cases hm : mergeComps (d :: ds) with
        | nil => exact absurd hm (mergeComps_ne_nil _ (by simp))
        | cons x xs =>
          rw [hm] at htail
          have hnos : '/' ∉ dropDD c := fun hmem => hc.2.2.2 (mem_dropDD c '/' hmem)
          have hx : CompOK x := goodChain_head x xs htail
          have hmerged : CompOK (dropDD c ++ x) := merged_compOK _ _ hnos hx
          cases xs with
          | nil => exact hmerged
          | cons y ys =>
            obtain ⟨-, hxE, hys⟩ := htail
            exact ⟨hmerged, merged_endsDD_false _ _ hx hxE, hys⟩
      · simp only [hE, Bool.false_eq_true, if_false]
        rw [goodChain_cons_iff c (mergeComps (d :: ds)) (mergeComps_ne_nil _ (by simp))]
        exact ⟨hc, by rwa [← Bool.not_eq_true], htail⟩

/-! ### Shape of the normalized-and-replaced string -/

theorem splitOn_no_sep (sep : Char) (s : Str) (c : Str) (hc : c ∈ splitOn sep s) :
    sep ∉ c := by
  induction s generalizing c with
  | nil =>
    simp [splitOn] at hc
    subst hc
    simp
  | cons a r ih =>
    by_cases ha : a = sep
    · subst ha
      simp only [splitOn, if_pos rfl] at hc
      rcases List.mem_cons.mp hc with rfl | h2
      · simp
      · exact ih c h2
    · simp only [splitOn, if_neg ha] at hc
      cases hr : splitOn sep r with
      | nil => exact absurd hr (splitOn_ne_nil sep r)
      | cons p ps =>
        rw [hr] at hc
        rcases List.mem_cons.mp hc with rfl | h2
        · intro hmem
          rcases List.mem_cons.mp hmem with h3 | h3
          · exact ha h3.symm
          · exact ih p (by rw [hr]; exact List.mem_cons_self p ps) h3
        · exact ih c (by rw [hr]; exact List.mem_cons_of_mem p h2)

theorem splitOn_id (sep : Char) (s : Str) (h : sep ∉ s) : splitOn sep s = [s] := by
  induction s with
  | nil => rfl
  | cons a r ih =>
    have ha : ¬ a = sep := fun hh => h (by simp [hh])
    simp only [splitOn, if_neg ha]
    rw [ih (fun hm => h (List.mem_cons_of_mem a hm))]

theorem splitOn_joinSlash (ds : List Str) (hds : ds ≠ [])
    (h : ∀ c ∈ ds, '/' ∉ c) : splitOn '/' (joinSlash ds) = ds := by
  induction ds with
  | nil => exact absurd rfl hds
  | cons c cs ih =>
    cases cs with
    | nil => exact splitOn_id '/' c (h c (by simp))
    | cons d es =>
      rw [joinSlash_cons c _ (by simp), splitOn_append_sep,
        splitOn_id '/' c (h c (by simp)),
        ih (by simp) (fun x hx => h x (List.mem_cons_of_mem c hx))]
      rfl

theorem rpComps_props (s : Str) (c : Str) (hc : c ∈ rpComps s) :
    c ≠ [] ∧ c ≠ ['.'] ∧ '/' ∉ c := by
  unfold rpComps at hc
  have h1 := List.of_mem_filter hc
  have h2 := List.mem_of_mem_filter hc
  simp only [decide_eq_true_eq] at h1
  exact ⟨h1.1, h1.2, splitOn_no_sep '/' s c h2⟩

theorem normAux_shape (cs : List Str)
    (hcs : ∀ c ∈ cs, c ≠ [] ∧ c ≠ ['.'] ∧ '/' ∉ c) :
    ∀ (xs : List Str) (k : Nat), (∀ c ∈ xs, CompOK c) →
    ∃ k2 ns, normAux (xs ++ List.replicate k dotdot) cs
        = List.replicate k2 dotdot ++ ns ∧ ∀ c ∈ ns, CompOK c := by
  induction cs with
  | nil =>
    intro xs k hxs
    refine ⟨k, xs.reverse, ?_, fun c hc => hxs c (List.mem_reverse.mp hc)⟩
    show (xs ++ List.replicate k dotdot).reverse = _
    rw [List.reverse_append, List.reverse_replicate]
  | cons c cs' ih =>
    intro xs k hxs
    have hcs' : ∀ x ∈ cs', x ≠ [] ∧ x ≠ ['.'] ∧ '/' ∉ x :=
      fun x hx => hcs x (List.mem_cons_of_mem c hx)
    by_cases hc : c = dotdot
    · subst hc
      cases xs with
      | nil =>
        cases k with
        | zero =>
          have hred : normAux (([] : List Str) ++ List.replicate 0 dotdot) (dotdot :: cs')
              = normAux ([] ++ List.replicate 1 dotdot) cs' := by
            simp [normAux]
          rw [hred]
          exact ih hcs' [] 1 (by simp)
        | succ k' =>
          have hred : normAux (([] : List Str) ++ List.replicate (k' + 1) dotdot) (dotdot :: cs')
              = normAux ([] ++ List.replicate (k' + 2) dotdot) cs' := by
            simp [normAux, List.replicate_succ]
          rw [hred]
          exact ih hcs' [] (k' + 2) (by simp)
      | cons x xs' =>
        have hx : CompOK x := hxs x (by simp)
        have hxd : ¬ x = dotdot := hx.2.2.1
        have hred : normAux ((x :: xs') ++ List.replicate k dotdot) (dotdot :: cs')
            = normAux (xs' ++ List.replicate k dotdot) cs' := by
          simp [normAux, hxd]
        rw [hred]
        exact ih hcs' xs' k (fun y hy => hxs y (List.mem_cons_of_mem x hy))
    · have hCc : CompOK c := by
        obtain ⟨h1, h2, h3⟩ := hcs c (by simp)
        exact ⟨h1, h2, hc, h3⟩
      have hred : normAux (xs ++ List.replicate k dotdot) (c :: cs')
          = normAux ((c :: xs) ++ List.replicate k dotdot) cs' := by
        simp [normAux, hc]
      rw [hred]
      exact ih hcs' (c :: xs) k (by
        intro y hy
        rcases List.mem_cons.mp hy with rfl | h2
        · exact hCc
        · exact hxs y h2)

theorem rpNormalize_shape (s : Str) :
    ∃ k ns, rpNormalize s = joinSlash (List.replicate k dotdot ++ ns)
      ∧ ∀ c ∈ ns, CompOK c := by
  obtain ⟨k, ns, h1, h2⟩ :=
    normAux_shape (rpComps s) (fun c hc => rpComps_props s c hc) [] 0 (by simp)
  refine ⟨k, ns, ?_, h2⟩
  unfold rpNormalize
  rw [show normAux [] (rpComps s)
      = normAux (([] : List Str) ++ List.replicate 0 dotdot) (rpComps s) from rfl, h1]

theorem stripJoin_cons (c : Str) (cs : List Str) (h : cs ≠ []) :
    stripJoin (c :: cs)
      = (if endsDD c then dropDD c else c ++ ['/']) ++ stripJoin cs := by
  cases cs with
  | nil => exact absurd rfl h
  | cons d ds => rfl

theorem stripJoin_replicate (k : Nat) (ns : List Str) (h : ns ≠ []) :
    stripJoin (List.replicate k dotdot ++ ns) = stripJoin ns := by
  induction k with
  | zero => rfl
  | succ k' ih =>
    have hne : List.replicate k' dotdot ++ ns ≠ [] := by
      intro hh
      exact h (List.append_eq_nil.mp hh).2
    rw [List.replicate_succ, List.cons_append, stripJoin_cons dotdot _ hne, ih]
    rfl

theorem sdds_join_replicate (k : Nat) :
    sdds (joinSlash (List.replicate k dotdot))
      = if k = 0 then [] else dotdot := by
  induction k with
  | zero => rfl
  | succ k' ih =>
    cases k' with
    | zero => rfl
    | succ k'' =>
      rw [List.replicate_succ,
        joinSlash_cons dotdot (List.replicate (k'' + 1) dotdot) (by simp),
        show (dotdot ++ '/' :: joinSlash (List.replicate (k'' + 1) dotdot))
          = '.' :: '.' :: '/' :: joinSlash (List.replicate (k'' + 1) dotdot) from rfl,
        sdds_cons3, if_pos ⟨rfl, rfl, rfl⟩, ih]
      simp

theorem nrep_shape (s : Str) :
    sdds (rpNormalize s) = [] ∨ sdds (rpNormalize s) = dotdot
      ∨ ∃ ds, ds ≠ [] ∧ GoodChain ds ∧ sdds (rpNormalize s) = joinSlash ds := by
  obtain ⟨k, ns, h1, h2⟩ := rpNormalize_shape s
  rcases hns : ns with _ | ⟨n0, ns'⟩
  · rw [h1, hns, List.append_nil, sdds_join_replicate]
    by_cases hk : k = 0
    · left
      simp [hk]
    · right
      left
      simp [hk]
  · right
    right
    have hne : ns ≠ [] := by rw [hns]; simp
    have hnoslash : ∀ c ∈ List.replicate k dotdot ++ ns, '/' ∉ c := by
      intro c hc
      rcases List.mem_append.mp hc with h | h
      · rw [List.eq_of_mem_replicate h]
        decide
      · exact (h2 c h).2.2.2
    rw [h1, sdds_joinSlash _ hnoslash, stripJoin_replicate k ns hne,
      stripJoin_merge]
    exact ⟨mergeComps ns, mergeComps_ne_nil ns hne, merge_goodChain ns h2, rfl⟩

/-! ### Stability of the remainder under a second round -/

theorem goodChain_all_compOK (ds : List Str) (h : GoodChain ds) :
    ∀ c ∈ ds, CompOK c := by
  induction ds with
  | nil =>
    intro c hc
    simp at hc
  | cons x xs ih =>
    intro c hc
    rcases List.mem_cons.mp hc with rfl | h2
    · exact goodChain_head c xs h
    · cases xs with
      | nil => simp at h2
      | cons y ys => exact ih h.2.2 c h2

theorem normAux_no_dotdot (cs : List Str) (h : ∀ c ∈ cs, c ≠ dotdot) :
    ∀ acc, normAux acc cs = acc.reverse ++ cs := by
  induction cs with
  | nil =>
    intro acc
    simp [normAux]
  | cons c cs' ih =>
    intro acc
    have hc : ¬ c = dotdot := h c (by simp)
    rw [show normAux acc (c :: cs') = normAux (c :: acc) cs'
        from by simp [normAux, hc],
      ih (fun x hx => h x (List.mem_cons_of_mem c hx)) (c :: acc)]
    simp

theorem stripJoin_goodChain (ds : List Str) (h : GoodChain ds) :
    stripJoin ds = joinSlash ds := by
  induction ds with
  | nil => rfl
  | cons c cs ih =>
    cases cs with
    | nil => rfl
    | cons d es =>
      obtain ⟨hc, hcE, htail⟩ := h
      rw [stripJoin_cons c _ (by simp), joinSlash_cons c _ (by simp), ih htail,
        hcE]
      simp

theorem nrep_stable_chain (ds : List Str) (h : GoodChain ds) :
    sdds (rpNormalize (joinSlash ds)) = joinSlash ds := by
  by_cases hds : ds = []
  · subst hds
    rfl
  · have hAll := goodChain_all_compOK ds h
    have hsplit : splitOn '/' (joinSlash ds) = ds :=
      splitOn_joinSlash ds hds (fun c hc => (hAll c hc).2.2.2)
    have hfilter : rpComps (joinSlash ds) = ds := by
      unfold rpComps
      rw [hsplit]
      apply List.filter_eq_self.mpr
      intro c hc
      have hco := hAll c hc
      simp [hco.1, hco.2.1]
    have hnorm : rpNormalize (joinSlash ds) = joinSlash ds := by
      unfold rpNormalize
      rw [hfilter, normAux_no_dotdot ds (fun c hc => (hAll c hc).2.2.1) []]
      rfl
    rw [hnorm, sdds_joinSlash ds (fun c hc => (hAll c hc).2.2.2),
      stripJoin_goodChain ds h]

theorem goodChain_append_right (ds1 ds2 : List Str)
    (h : GoodChain (ds1 ++ ds2)) : GoodChain ds2 := by
  induction ds1 with
  | nil => exact h
  | cons c cs ih =>
    apply ih
    rcases hcc : cs ++ ds2 with _ | ⟨x, xs⟩
    · trivial
    · have h2 : GoodChain (c :: x :: xs) := by
        rw [List.cons_append, hcc] at h
        exact h
      exact h2.2.2

theorem append_slash_cases (c : Str) (hc : '/' ∉ c) :
    ∀ (x R y : Str), c ++ '/' :: R = x ++ '/' :: y →
      (x = c ∧ y = R) ∨ (∃ x', x = c ++ '/' :: x' ∧ R = x' ++ '/' :: y) := by
  induction c with
  | nil =>
    intro x R y h
    cases x with
    | nil =>
      left
      injection h with h1 h2
      exact ⟨rfl, h2.symm⟩
    | cons a x' =>
      right
      injection h with h1 h2
      exact ⟨x', by rw [← h1]; rfl, h2⟩
  | cons ch c' ih =>
    intro x R y h
    have hch : ch ≠ '/' := fun hh => hc (by simp [hh])
    cases x with
    | nil =>
      injection h with h1 h2
      exact absurd h1 hch
    | cons a x' =>
      injection h with h1 h2
      subst h1
      rcases ih (fun hm => hc (List.mem_cons_of_mem ch hm)) x' R y h2 with
        ⟨hx, hy⟩ | ⟨x'', hx, hR⟩
      · left
        exact ⟨by rw [hx], hy⟩
      · right
        refine ⟨x'', ?_, hR⟩
        rw [hx]
        rfl

theorem joinSlash_split (ds : List Str) (hds : ∀ c ∈ ds, CompOK c) :
    ∀ (x y : Str), joinSlash ds = x ++ '/' :: y →
      ∃ ds1 ds2, ds = ds1 ++ ds2 ∧ ds2 ≠ [] ∧ y = joinSlash ds2 := by
  induction ds with
  | nil =>
    intro x y h
    exact absurd (List.append_eq_nil.mp h.symm).2 (List.cons_ne_nil '/' y)
  | cons c cs ih =>
    intro x y h
    cases cs with
    | nil =>
      exfalso
      have hmem : '/' ∈ c := by
        rw [show joinSlash [c] = c from rfl] at h
        rw [h]
        simp
      exact (hds c (by simp)).2.2.2 hmem
    | cons d es =>
      rw [joinSlash_cons c _ (by simp)] at h
      rcases append_slash_cases c ((hds c (by simp)).2.2.2) x
          (joinSlash (d :: es)) y h with ⟨hx, hy⟩ | ⟨x', hx, hR⟩
      · exact ⟨[c], d :: es, rfl, by simp, hy⟩
      · obtain ⟨ds1, ds2, hsplit, hne, hy⟩ :=
          ih (fun z hz => hds z (List.mem_cons_of_mem c hz)) x' y hR
        exact ⟨c :: ds1, ds2, by rw [List.cons_append, ← hsplit], hne, hy⟩

theorem stripPre_some (pre s u : Str) (h : stripPre pre s = some u) :
    s = pre ++ u := by
  unfold stripPre at h
  by_cases hp : pre.isPrefixOf s
  · rw [if_pos hp] at h
    injection h with h1
    obtain ⟨t, ht⟩ := List.isPrefixOf_iff_prefix.mp hp
    rw [← h1, ← ht, List.drop_left]
  · rw [if_neg hp] at h
    exact Option.noConfusion h

theorem stripSlash_eq_some (u r : Str) : stripSlash u = some r ↔ u = '/' :: r := by
  cases u with
  | nil => simp [stripSlash]
  | cons a u' =>
    by_cases ha : a = '/'
    · subst ha
      simp [stripSlash]
    · constructor
      · intro h
        exfalso
        unfold stripSlash at h
        split at h
        · rename_i heq
          injection heq with h1 h2
          exact ha h1
        · exact absurd h (by simp)
      · intro h
        injection h with h1
        exact absurd h1 ha

theorem strip2_some (pre s r : Str)
    (h : (stripPre pre s).bind stripSlash = some r) : s = pre ++ '/' :: r := by
  cases hu : stripPre pre s with
  | none =>
    rw [hu] at h
    simp at h
  | some u =>
    rw [hu] at h
    simp only [Option.some_bind] at h
    rw [stripSlash_eq_some] at h
    rw [stripPre_some pre s u hu, h]

theorem strip2_shape (pre sr0 : Str)
    (hs : sr0 = [] ∨ sr0 = dotdot
      ∨ ∃ ds, ds ≠ [] ∧ GoodChain ds ∧ sr0 = joinSlash ds)
    (r : Str) (h : (stripPre pre sr0).bind stripSlash = some r) :
    r = [] ∨ r = dotdot ∨ ∃ ds, ds ≠ [] ∧ GoodChain ds ∧ r = joinSlash ds := by
  have hdecomp := strip2_some pre sr0 r h
  rcases hs with rfl | rfl | ⟨ds, hne, hgc, rfl⟩
  · exact absurd hdecomp.symm (by simp)
  · exfalso
    have hmem : '/' ∈ dotdot := by
      rw [hdecomp]
      simp
    exact absurd hmem (by decide)
  · obtain ⟨ds1, ds2, hsplit, hne2, hy⟩ :=
      joinSlash_split ds (goodChain_all_compOK ds hgc) pre r hdecomp
    right
    right
    refine ⟨ds2, hne2, ?_, hy⟩
    rw [hsplit] at hgc
    exact goodChain_append_right ds1 ds2 hgc

theorem nasRemainder_shape (root input : Str) :
    nasRemainder root input = [] ∨ nasRemainder root input = dotdot
      ∨ ∃ ds, ds ≠ [] ∧ GoodChain ds
          ∧ nasRemainder root input = joinSlash ds := by
  have hs0 := nrep_shape input
  unfold nasRemainder
  by_cases hc : (strStarts root input
      || strStarts (pathRel root) (sdds (rpNormalize input))) = true
  · rw [if_pos hc]
    cases hbind : (stripPre (pathRel root) (sdds (rpNormalize input))).bind
        stripSlash with
    | none =>
      left
      rfl
    | some r =>
      simpa using strip2_shape (pathRel root) _ hs0 r hbind
  · rw [if_neg hc]
    cases hbind : (stripPre (fileName root) (sdds (rpNormalize input))).bind
        stripSlash with
    | none => simpa using hs0
    | some r =>
      simpa using strip2_shape (fileName root) _ hs0 r hbind

theorem nrep_stable_of_shape (rel : Str)
    (h : rel = [] ∨ rel = dotdot
      ∨ ∃ ds, ds ≠ [] ∧ GoodChain ds ∧ rel = joinSlash ds) :
    sdds (rpNormalize rel) = rel := by
  rcases h with rfl | rfl | ⟨ds, -, hgc, rfl⟩
  · decide
  · decide
  · exact nrep_stable_chain ds hgc

/-! ### Absoluteness facts and the amended idempotence theorem -/

theorem pathComps_abs (p : Str) (hp : p.head? = some '/') :
    (pathComps p).head? = some rootMarker := by
  unfold pathComps
  rw [if_pos hp]
  rfl

theorem mem_pathComps_tail_no_slash (p : Str) (c : Str)
    (hc : c ∈ (splitOn '/' p).filter (fun x => decide (x ≠ []))) :
    c ≠ [] ∧ '/' ∉ c := by
  have h1 := List.of_mem_filter hc
  have h2 := List.mem_of_mem_filter hc
  simp only [decide_eq_true_eq] at h1
  exact ⟨h1, splitOn_no_sep '/' p c h2⟩

theorem abs_of_whitelistOk (home p : Str) (hhome : home.head? = some '/')
    (h : whitelistOk home p = true) : p.head? = some '/' := by
  have hhead : (pathComps p).head? = some rootMarker := by
    unfold whitelistOk whitelistOkC at h
    rw [Bool.or_eq_true] at h
    rcases h with h1 | h2
    · obtain ⟨f, hf, hpre⟩ := List.any_eq_true.mp h1
      have hfh : (pathComps f).head? = some rootMarker := by
        fin_cases hf <;> decide
      obtain ⟨t, ht⟩ := List.isPrefixOf_iff_prefix.mp hpre
      cases hfc : pathComps f with
      | nil => rw [hfc] at hfh; simp at hfh
      | cons m rest =>
        rw [hfc] at hfh ht
        rw [← ht]
        simpa using hfh
    · have hhh := pathComps_abs home hhome
      obtain ⟨t, ht⟩ := List.isPrefixOf_iff_prefix.mp h2
      cases hfc : pathComps home with
      | nil => rw [hfc] at hhh; simp at hhh
      | cons m rest =>
        rw [hfc] at hhh ht
        rw [← ht]
        simpa using hhh
  by_contra hph
  unfold pathComps at hhead
  rw [if_neg hph] at hhead
  by_cases hcd : ((splitOn '/' p).filter (fun x => decide (x ≠ []))).head?
      = some ['.']
  · rw [if_pos hcd] at hhead
    rw [List.head?_cons] at hhead
    injection hhead with hh
    exact absurd hh (by decide)
  · rw [if_neg hcd] at hhead
    cases hh : ((splitOn '/' p).filter (fun x => decide (x ≠ []))).filter
        (fun x => decide (x ≠ ['.'])) with
    | nil => rw [hh] at hhead; simp at hhead
    | cons c rest =>
      rw [hh, List.head?_cons] at hhead
      injection hhead with hc
      have hcmem : c ∈ (splitOn '/' p).filter (fun x => decide (x ≠ [])) := by
        have : c ∈ ((splitOn '/' p).filter (fun x => decide (x ≠ []))).filter
            (fun x => decide (x ≠ ['.'])) := by
          rw [hh]
          simp
        exact List.mem_of_mem_filter this
      have := (mem_pathComps_tail_no_slash p c hcmem).2
      rw [hc] at this
      exact this (by simp [rootMarker])

theorem root_abs_of_join (root rel p : Str) (hp : p = pathJoin root rel)
    (hrel : rel.head? ≠ some '/') (habs : p.head? = some '/') :
    root.head? = some '/' ∧ root ≠ [] := by
  unfold pathJoin at hp
  rw [if_neg hrel] at hp
  by_cases hr : root = []
  · rw [if_pos hr] at hp
    rw [hp] at habs
    exact absurd habs hrel
  · rw [if_neg hr] at hp
    refine ⟨?_, hr⟩
    cases root with
    | nil => exact absurd rfl hr
    | cons r0 rt =>
      rw [hp] at habs
      split at habs <;> (simp at habs; simp [habs])

theorem shape_head_ne_slash (rel : Str)
    (h : rel = [] ∨ rel = dotdot
      ∨ ∃ ds, ds ≠ [] ∧ GoodChain ds ∧ rel = joinSlash ds) :
    rel.head? ≠ some '/' := by
  rcases h with rfl | rfl | ⟨ds, hne, hgc, rfl⟩
  · simp
  · decide
  · obtain ⟨c, cs, rfl⟩ : ∃ c cs, ds = c :: cs := by
      cases ds with
      | nil => exact absurd rfl hne
      | cons c cs => exact ⟨c, cs, rfl⟩
    have hc : CompOK c := goodChain_head c cs hgc
    obtain ⟨a, t, rfl⟩ : ∃ a t, c = a :: t := by
      cases c with
      | nil => exact absurd rfl hc.1
      | cons a t => exact ⟨a, t, rfl⟩
    have ha : a ≠ '/' := fun hh => hc.2.2.2 (by rw [hh]; simp)
    cases cs with
    | nil =>
      simp only [joinSlash, List.head?_cons]
      intro hh
      injection hh with hh2
      exact ha hh2
    | cons d es =>
      rw [joinSlash_cons (a :: t) (d :: es) (by simp)]
      simp only [List.cons_append, List.head?_cons]
      intro hh
      injection hh with hh2
      exact ha hh2

theorem strStarts_false_of_heads (pre s : Str) (h0 : pre.head? = some '/')
    (h1 : s.head? ≠ some '/') : strStarts pre s = false := by
  cases pre with
  | nil => simp at h0
  | cons p0 pt =>
    rw [List.head?_cons] at h0
    injection h0 with h0'
    cases s with
    | nil => rfl
    | cons s0 st =>
      have hs0 : s0 ≠ '/' := fun hh => h1 (by rw [List.head?_cons, hh])
      unfold strStarts
      rw [show List.isPrefixOf (p0 :: pt) (s0 :: st)
          = ((p0 == s0) && List.isPrefixOf pt st) from rfl]
      have : (p0 == s0) = false := by
        rw [beq_eq_false_iff_ne, h0']
        exact fun hh => hs0 hh.symm
      rw [this]
      rfl

theorem else_branch_id (suf rel : Str)
    (hb : strStarts (suf ++ ['/']) rel = false) :
    ((stripPre suf rel).bind stripSlash).getD rel = rel := by
  cases hbind : (stripPre suf rel).bind stripSlash with
  | none => rfl
  | some r =>
    exfalso
    have hdec := strip2_some suf rel r hbind
    have hpre : (suf ++ ['/']).isPrefixOf rel = true := by
      rw [hdec, show suf ++ '/' :: r = (suf ++ ['/']) ++ r from by simp]
      exact List.isPrefixOf_iff_prefix.mpr (List.prefix_append _ r)
    unfold strStarts at hb
    rw [hpre] at hb
    exact Bool.noConfusion hb

/-- C8 amended: when the relative remainder of a successful call neither
starts (string-wise) with the normalized root nor with the root suffix
followed by a separator, and the home directory is absolute, re-normalizing
the remainder succeeds and returns the same descriptor.  (Without those side
conditions the prefix strips fire a second time, as the counterexample
shows.) -/
theorem c8_amended (home root input p suf rel : Str)
    (hhome : home.head? = some '/')
    (h1 : normAbsPath home root input = .ok (p, suf, rel))
    (ha : strStarts (pathRel root) rel = false)
    (hb : strStarts (suf ++ ['/']) rel = false) :
    normAbsPath home root rel = .ok (p, suf, rel) := by
  unfold normAbsPath at h1
  by_cases hw : whitelistOk home (pathJoin root (nasRemainder root input)) = true
  case neg =>
    rw [if_neg hw] at h1
    exact absurd h1 (by simp)
  rw [if_pos hw] at h1
  simp only [Except.ok.injEq, Prod.mk.injEq] at h1
  obtain ⟨hp, hsuf, hrel⟩ := h1
  have hshape : rel = [] ∨ rel = dotdot
      ∨ ∃ ds, ds ≠ [] ∧ GoodChain ds ∧ rel = joinSlash ds := by
    have := nasRemainder_shape root input
    rwa [hrel] at this
  have hrelhead : rel.head? ≠ some '/' := shape_head_ne_slash rel hshape
  have hw2 : whitelistOk home (pathJoin root rel) = true := by
    rwa [hrel] at hw
  have hpabs : p.head? = some '/' := by
    apply abs_of_whitelistOk home p hhome
    rw [hp] at hw
    exact hw
  have hroot := root_abs_of_join root rel p (by rw [← hp, hrel]) hrelhead hpabs
  have hstep : nasRemainder root rel = rel := by
    simp only [nasRemainder]
    rw [nrep_stable_of_shape rel hshape,
      strStarts_false_of_heads root rel hroot.1 hrelhead, ha]
    simp only [Bool.or_self, Bool.false_eq_true, if_false]
    rw [hsuf]
    exact else_branch_id suf rel hb
  simp only [normAbsPath]
  rw [hstep, if_pos hw2, ← hp, hrel, ← hsuf]

/-- Witness for C8 amended: root `/media`, input `clips/a.mp4`; the
remainder `clips/a.mp4` starts with neither `media` nor `media/`, and
re-normalizing it returns the same descriptor. -/
theorem c8_amended_witness :
    (str "/home/user").head? = some '/'
    ∧ normAbsPath (str "/home/user") (str "/media") (str "clips/a.mp4")
        = .ok (str "/media/clips/a.mp4", str "media", str "clips/a.mp4")
    ∧ strStarts (pathRel (str "/media")) (str "clips/a.mp4") = false
    ∧ strStarts (str "media" ++ ['/']) (str "clips/a.mp4") = false
    ∧ normAbsPath (str "/home/user") (str "/media") (str "clips/a.mp4")
        = .ok (str "/media/clips/a.mp4", str "media", str "clips/a.mp4") :=
  ⟨by decide, by decide, by decide, by decide,
    by
      have h := c8_amended (str "/home/user") (str "/media") (str "clips/a.mp4")
        (str "/media/clips/a.mp4") (str "media") (str "clips/a.mp4")
        (by decide) (by decide) (by decide) (by decide)
      rw [show str "clips/a.mp4" = nasRemainder (str "/media") (str "clips/a.mp4")
          from by decide] at h
      exact h⟩

/-! ### Whitelist preservation under joins and parents -/

theorem mem_relPieces (q c : Str) (hc : c ∈ relPieces q) :
    c ≠ [] ∧ c ≠ ['.'] ∧ '/' ∉ c := by
  unfold relPieces at hc
  have h1 := List.of_mem_filter hc
  have h2 := List.mem_of_mem_filter hc
  have h3 := List.of_mem_filter h2
  have h4 := List.mem_of_mem_filter h2
  simp only [decide_eq_true_eq] at h1 h3
  exact ⟨h3, h1, splitOn_no_sep '/' q c h4⟩

theorem pathComps_abs_eq (p : Str) (hp : p.head? = some '/') :
    pathComps p = rootMarker :: relPieces p := by
  unfold pathComps relPieces
  rw [if_pos hp]

theorem whitelistOk_of_norm (home root input p s r : Str)
    (h : normAbsPath home root input = .ok (p, s, r)) :
    whitelistOk home p = true := by
  unfold normAbsPath at h
  by_cases hw : whitelistOk home (pathJoin root (nasRemainder root input)) = true
  · rw [if_pos hw] at h
    simp only [Except.ok.injEq, Prod.mk.injEq] at h
    rw [← h.1]
    exact hw
  · rw [if_neg hw] at h
    exact absurd h (by simp)

theorem relPieces_sep (x y : Str) :
    relPieces (x ++ '/' :: y) = relPieces x ++ relPieces y := by
  unfold relPieces
  rw [splitOn_append_sep]
  simp [List.filter_append]

theorem relPieces_slash_end (x : Str) : relPieces (x ++ ['/']) = relPieces x := by
  have h := relPieces_sep x []
  have h0 : relPieces [] = [] := by decide
  rw [h0] at h
  simpa using h

theorem head?_append_left (p q : Str) (h : p ≠ []) :
    (p ++ q).head? = p.head? := by
  cases p with
  | nil => exact absurd rfl h
  | cons a t => rfl

theorem pathComps_join_abs (p q : Str) (hp : p.head? = some '/')
    (hq : q.head? ≠ some '/') :
    pathComps (pathJoin p q) = pathComps p ++ relPieces q := by
  have hpne : p ≠ [] := by
    intro h
    rw [h] at hp
    simp at hp
  unfold pathJoin
  rw [if_neg hq, if_neg hpne]
  by_cases hl : p.getLast? = some '/'
  · rw [if_pos hl]
    rw [← List.head?_reverse] at hl
    obtain ⟨p', rfl⟩ : ∃ p', p = p' ++ ['/'] := by
      cases hpr : p.reverse with
      | nil => rw [hpr] at hl; simp at hl
      | cons c t =>
        rw [hpr, List.head?_cons] at hl
        injection hl with hl2
        refine ⟨t.reverse, ?_⟩
        rw [← List.reverse_reverse p, hpr, hl2]
        simp
    have happ : p' ++ ['/'] ++ q = p' ++ '/' :: q := by simp
    have habs2 : (p' ++ ['/'] ++ q).head? = some '/' := by
      rw [head?_append_left _ q hpne]
      exact hp
    rw [pathComps_abs_eq _ habs2, pathComps_abs_eq _ hp, happ, relPieces_sep,
      relPieces_slash_end]
    rfl
  · rw [if_neg hl]
    have habs2 : (p ++ '/' :: q).head? = some '/' := by
      rw [head?_append_left _ _ hpne]
      exact hp
    rw [pathComps_abs_eq _ habs2, pathComps_abs_eq _ hp, relPieces_sep]
    rfl

theorem isPrefixOf_extend (a b x : List Str) (h : a.isPrefixOf b = true) :
    a.isPrefixOf (b ++ x) = true := by
  rw [List.isPrefixOf_iff_prefix] at h ⊢
  exact h.trans (List.prefix_append b x)

theorem whitelistOkC_extend (home : Str) (pc : List Str) (x : List Str)
    (h : whitelistOkC home pc = true) :
    whitelistOkC home (pc ++ x) = true := by
  unfold whitelistOkC at h ⊢
  rw [Bool.or_eq_true] at h ⊢
  rcases h with h1 | h2
  · left
    obtain ⟨f, hf, hpre⟩ := List.any_eq_true.mp h1
    exact List.any_eq_true.mpr ⟨f, hf, isPrefixOf_extend _ _ x hpre⟩
  · right
    exact isPrefixOf_extend _ _ x h2

theorem whitelistOk_pathJoin (home p q : Str) (hhome : home.head? = some '/')
    (hp : whitelistOk home p = true) (hq : q.head? ≠ some '/') :
    whitelistOk home (pathJoin p q) = true := by
  have habs := abs_of_whitelistOk home p hhome hp
  unfold whitelistOk
  rw [pathComps_join_abs p q habs hq]
  exact whitelistOkC_extend home (pathComps p) (relPieces q) hp

/-! ### Parents and file names stay inside the allow-list -/

theorem mem_of_getLast?_eq (l : List Str) (c : Str) (h : l.getLast? = some c) :
    c ∈ l := by
  obtain ⟨hne, heq⟩ := List.mem_getLast?_eq_getLast (Option.mem_def.mpr h)
  rw [heq]
  exact List.getLast_mem hne

theorem mem_pathComps (s c : Str) (h : c ∈ pathComps s) :
    c = rootMarker ∨ c = ['.'] ∨ (c ≠ [] ∧ '/' ∉ c) := by
  unfold pathComps at h
  by_cases h1 : s.head? = some '/'
  · rw [if_pos h1] at h
    rcases List.mem_cons.mp h with rfl | h2
    · left
      rfl
    · right
      right
      exact mem_pathComps_tail_no_slash s c (List.mem_of_mem_filter h2)
  · rw [if_neg h1] at h
    by_cases h2 : ((splitOn '/' s).filter (fun x => decide (x ≠ []))).head?
        = some ['.']
    · rw [if_pos h2] at h
      rcases List.mem_cons.mp h with rfl | h3
      · right
        left
        rfl
      · right
        right
        exact mem_pathComps_tail_no_slash s c (List.mem_of_mem_filter h3)
    · rw [if_neg h2] at h
      right
      right
      exact mem_pathComps_tail_no_slash s c (List.mem_of_mem_filter h)

theorem fileName_no_slash (s : Str) : '/' ∉ fileName s := by
  unfold fileName
  cases hl : (pathComps s).getLast? with
  | none => simp
  | some c =>
    show '/' ∉ (if c = rootMarker ∨ c = dotdot ∨ c = ['.'] then [] else c)
    by_cases hc : c = rootMarker ∨ c = dotdot ∨ c = ['.']
    · simp [hc]
    · rw [if_neg hc]
      push_neg at hc
      rcases mem_pathComps s c (mem_of_getLast?_eq _ c hl) with rfl | rfl | ⟨-, hns⟩
      · exact absurd rfl hc.1
      · exact absurd rfl hc.2.2
      · exact hns

theorem fileName_head (s : Str) : (fileName s).head? ≠ some '/' := by
  intro h
  apply fileName_no_slash s
  cases hf : fileName s with
  | nil =>
    rw [hf] at h
    simp at h
  | cons a t =>
    rw [hf, List.head?_cons] at h
    injection h with h2
    rw [h2]
    simp

theorem pathComps_joinComps (ys : List Str)
    (h : ∀ c ∈ ys, c ≠ [] ∧ c ≠ ['.'] ∧ '/' ∉ c) :
    pathComps (joinComps (rootMarker :: ys)) = rootMarker :: ys := by
  have hjc : joinComps (rootMarker :: ys) = '/' :: joinSlash ys := by
    simp [joinComps]
  rw [hjc]
  cases ys with
  | nil => decide
  | cons y ys' =>
    have habs : ('/' :: joinSlash (y :: ys')).head? = some '/' := rfl
    rw [pathComps_abs_eq _ habs]
    congr 1
    unfold relPieces
    have hsp : splitOn '/' ('/' :: joinSlash (y :: ys'))
        = [] :: splitOn '/' (joinSlash (y :: ys')) := by
      simp [splitOn]
    rw [hsp, splitOn_joinSlash (y :: ys') (by simp) (fun c hc => (h c hc).2.2)]
    rw [show (([] : Str) :: y :: ys').filter (fun c => decide (c ≠ []))
        = (y :: ys').filter (fun c => decide (c ≠ [])) from by simp]
    have hf1 : (y :: ys').filter (fun c => decide (c ≠ [])) = y :: ys' :=
      List.filter_eq_self.mpr (fun c hc => by simp [(h c hc).1])
    rw [hf1]
    have hf2 : (y :: ys').filter (fun c => decide (c ≠ ['.'])) = y :: ys' :=
      List.filter_eq_self.mpr (fun c hc => by simp [(h c hc).2.1])
    rw [hf2]

theorem parentStr_of_comps (s : Str) (y : Str) (ys : List Str)
    (h : pathComps s = rootMarker :: y :: ys) :
    parentStr s = some (joinComps ((rootMarker :: y :: ys).dropLast)) := by
  unfold parentStr
  rw [h]

theorem whitelistOk_parentStr (home root rel : Str)
    (hhome : home.head? = some '/')
    (hroot : whitelistOk home root = true)
    (hrelhead : rel.head? ≠ some '/')
    (hrelne : relPieces rel ≠ []) :
    whitelistOk home ((parentStr (pathJoin root rel)).getD []) = true := by
  have hrabs := abs_of_whitelistOk home root hhome hroot
  have hcomps := pathComps_join_abs root rel hrabs hrelhead
  rw [pathComps_abs_eq root hrabs, List.cons_append] at hcomps
  obtain ⟨b, l2, hb⟩ : ∃ b l2, relPieces rel = b :: l2 := by
    cases hc : relPieces rel with
    | nil => exact absurd hc hrelne
    | cons b l2 => exact ⟨b, l2, rfl⟩
  rw [hb] at hcomps
  obtain ⟨y, ys, hys⟩ : ∃ y ys, relPieces root ++ b :: l2 = y :: ys := by
    cases relPieces root with
    | nil => exact ⟨b, l2, rfl⟩
    | cons w ws => exact ⟨w, ws ++ b :: l2, rfl⟩
  rw [hys] at hcomps
  rw [parentStr_of_comps _ y ys hcomps, Option.getD_some]
  have hdrop : (rootMarker :: y :: ys).dropLast
      = rootMarker :: (relPieces root ++ (b :: l2).dropLast) := by
    rw [show (rootMarker :: y :: ys).dropLast = rootMarker :: (y :: ys).dropLast
        from rfl, ← hys, List.dropLast_append_cons]
  rw [hdrop]
  have hprops : ∀ c ∈ relPieces root ++ (b :: l2).dropLast,
      c ≠ [] ∧ c ≠ ['.'] ∧ '/' ∉ c := by
    intro c hc
    rcases List.mem_append.mp hc with h1 | h1
    · exact mem_relPieces root c h1
    · have hmem : c ∈ relPieces rel := by
        rw [hb]
        exact List.dropLast_subset _ h1
      exact mem_relPieces rel c hmem
  unfold whitelistOk
  rw [pathComps_joinComps _ hprops,
    show rootMarker :: (relPieces root ++ (b :: l2).dropLast)
      = (rootMarker :: relPieces root) ++ (b :: l2).dropLast from by simp,
    ← pathComps_abs_eq root hrabs]
  exact whitelistOkC_extend home (pathComps root) _ hroot


theorem norm_ok_decomp (home root input p s r : Str)
    (h : normAbsPath home root input = .ok (p, s, r)) :
    p = pathJoin root r ∧ s = fileName root ∧ r = nasRemainder root input := by
  simp only [normAbsPath] at h
  split at h
  · simp only [Except.ok.injEq, Prod.mk.injEq] at h
    obtain ⟨h1, h2, h3⟩ := h
    refine ⟨?_, h2.symm, h3.symm⟩
    rw [← h3, ← h1]
  · exact absurd h (by simp)

theorem relPieces_of_shape (r : Str) (hne : r ≠ [])
    (h : r = [] ∨ r = dotdot
      ∨ ∃ ds, ds ≠ [] ∧ GoodChain ds ∧ r = joinSlash ds) :
    relPieces r ≠ [] := by
  rcases h with rfl | rfl | ⟨ds, hdne, hgc, rfl⟩
  · exact absurd rfl hne
  · decide
  · have hAll := goodChain_all_compOK ds hgc
    unfold relPieces
    rw [splitOn_joinSlash ds hdne (fun c hc => (hAll c hc).2.2.2)]
    have hf1 : ds.filter (fun c => decide (c ≠ [])) = ds :=
      List.filter_eq_self.mpr (fun c hc => by simp [(hAll c hc).1])
    rw [hf1]
    have hf2 : ds.filter (fun c => decide (c ≠ ['.'])) = ds :=
      List.filter_eq_self.mpr (fun c hc => by simp [(hAll c hc).2.1])
    rw [hf2]
    exact hdne

theorem trace_wl_createDirectory (home root input : Str) (fs : FS) (op : FsOp)
    (hop : op ∈ (createDirectory home root input fs).2.2) :
    ∀ q ∈ opPaths op, whitelistOk home q = true := by
  unfold createDirectory at hop
  split at hop
  · simp at hop
  · rename_i tp sfx rel heq
    have hwl := whitelistOk_of_norm home root input tp sfx rel heq
    split at hop <;>
      · simp at hop
        subst hop
        intro q hq
        simp [opPaths] at hq
        subst hq
        exact hwl


theorem trace_wl_remove (home root input : Str) (fs : FS) (op : FsOp)
    (hop : op ∈ (removeFileOrFolder home root input fs).2.2) :
    ∀ q ∈ opPaths op, whitelistOk home q = true := by
  unfold removeFileOrFolder at hop
  split at hop
  · simp at hop
  · rename_i tp sfx rel heq
    have hwl := whitelistOk_of_norm home root input tp sfx rel heq
    intro q hq
    split at hop
    · simp at hop
    · split at hop
      · split at hop <;>
          · simp at hop
            subst hop
            simp [opPaths] at hq
            subst hq
            exact hwl
      · split at hop
        · simp at hop
          subst hop
          simp [opPaths] at hq
          subst hq
          exact hwl
        · simp at hop

theorem trace_wl_copyAndDelete (fs : FS) (s t : Str) (op2 : FsOp)
    (h2 : op2 ∈ (copyAndDelete fs s t).2.2) :
    op2 = FsOp.copyOp s t ∨ op2 = FsOp.removeFileOp s := by
  unfold copyAndDelete at h2
  split at h2
  · simp at h2
    tauto
  · simp at h2
    tauto

theorem trace_wl_renameHelper (home : Str) (rf : Str → Str → Bool) (fs : FS)
    (s t : Str) (hs : whitelistOk home s = true) (ht : whitelistOk home t = true)
    (op : FsOp) (hop : op ∈ (renameHelper rf fs s t).2.2) :
    ∀ q ∈ opPaths op, whitelistOk home q = true := by
  intro q hq
  have hops : op = FsOp.renameOp s t ∨ op = FsOp.copyOp s t
      ∨ op = FsOp.removeFileOp s := by
    unfold renameHelper at hop
    split at hop
    · rcases hcda : copyAndDelete fs s t with ⟨r0, fs0, tr0⟩
      rw [hcda] at hop
      simp at hop
      rcases hop with rfl | h2
      · left
        rfl
      · right
        exact trace_wl_copyAndDelete fs s t op (by rw [hcda]; exact h2)
    · simp at hop
      tauto
  rcases hops with rfl | rfl | rfl
  · simp only [opPaths, List.mem_cons, List.not_mem_nil, or_false] at hq
    rcases hq with rfl | rfl
    · exact hs
    · exact ht
  · simp only [opPaths, List.mem_cons, List.not_mem_nil, or_false] at hq
    rcases hq with rfl | rfl
    · exact hs
    · exact ht
  · simp only [opPaths, List.mem_cons, List.not_mem_nil, or_false] at hq
    subst hq
    exact hs

theorem trace_wl_rename (home root : Str) (hhome : home.head? = some '/')
    (rf : Str → Str → Bool) (s t : Str) (fs : FS) (op : FsOp)
    (hop : op ∈ (renameFile home root rf s t fs).2.2) :
    ∀ q ∈ opPaths op, whitelistOk home q = true := by
  simp only [renameFile] at hop
  split at hop
  · simp at hop
  · rename_i sp s1 r1 heqs
    split at hop
    · simp at hop
    · rename_i tp s2 r2 heqt
      have hws := whitelistOk_of_norm home root s sp s1 r1 heqs
      have hwt := whitelistOk_of_norm home root t tp s2 r2 heqt
      have hwt2 : whitelistOk home (pathJoin tp (fileName sp)) = true :=
        whitelistOk_pathJoin home tp _ hhome hwt (fileName_head sp)
      split at hop
      · simp at hop
      · split at hop
        · exact trace_wl_renameHelper home rf fs sp tp hws hwt op hop
        · split at hop
          · split at hop
            · simp at hop
            · split at hop
              · exact trace_wl_renameHelper home rf fs sp
                  (pathJoin tp (fileName sp)) hws hwt2 op hop
              · simp at hop
          · split at hop
            · simp at hop
            · split at hop
              · exact trace_wl_renameHelper home rf fs sp tp hws hwt op hop
              · simp at hop


theorem trace_wl_runChunks (fs : FS) (fp : Str) (cs : List (Except Str (List Nat)))
    (op : FsOp) (hop : op ∈ (runChunks fs fp cs).2.2) :
    op = FsOp.removeFileOp fp := by
  induction cs generalizing fs with
  | nil => simp [runChunks] at hop
  | cons c rest ih =>
    cases c with
    | ok chunk =>
      rw [show runChunks fs fp (Except.ok chunk :: rest)
          = runChunks (fsAppend fs (canon fp) chunk) fp rest from rfl] at hop
      exact ih _ hop
    | error m =>
      rw [show runChunks fs fp (Except.error m :: rest)
          = if strInfix (str "stream is incomplete") m then
              (Except.error (ServiceError.Payload m), fsRemove fs (canon fp),
                [FsOp.removeFileOp fp])
            else (Except.error (ServiceError.Payload m), fs, []) from rfl] at hop
      split at hop
      · simp at hop
        exact hop
      · simp at hop

theorem uploadTarget_char (home root : Str) (hhome : home.head? = some '/')
    (sanitize : Str → Str) (hsan : ∀ f, (sanitize f).head? ≠ some '/')
    (fs : FS) (path : Str) (p : UploadPart)
    (hrand : p.rand.head? ≠ some '/') :
    (∀ op ∈ (uploadTarget home root sanitize fs path false p).2,
      ∀ q ∈ opPaths op, whitelistOk home q = true) ∧
    (∀ fp, (uploadTarget home root sanitize fs path false p).1 = .ok fp →
      whitelistOk home fp = true) := by
  have hfname : (match p.filename with
      | some f => sanitize f
      | none => p.rand).head? ≠ some '/' := by
    cases p.filename with
    | some f => exact hsan f
    | none => exact hrand
  constructor
  · intro op hop
    simp only [uploadTarget, Bool.false_eq_true, if_false] at hop
    split at hop
    · simp at hop
    · rename_i tp s r hn
      have hwl := whitelistOk_of_norm home root path tp s r hn
      split at hop <;>
        · simp at hop
          subst hop
          intro q hq
          simp [opPaths] at hq
          subst hq
          exact hwl
  · intro fp hfp
    simp only [uploadTarget, Bool.false_eq_true, if_false] at hfp
    split at hfp
    · simp at hfp
    · rename_i tp s r hn
      split at hfp
      · simp only [Except.ok.injEq] at hfp
        subst hfp
        exact whitelistOk_pathJoin home tp _ hhome
          (whitelistOk_of_norm home root path tp s r hn) hfname
      · simp at hfp

theorem trace_wl_uploadParts (home root : Str) (hhome : home.head? = some '/')
    (sanitize : Str → Str) (path : Str)
    (hsan : ∀ f, (sanitize f).head? ≠ some '/') :
    ∀ (parts : List UploadPart), (∀ p ∈ parts, p.rand.head? ≠ some '/') →
    ∀ (fs : FS) (op : FsOp),
      op ∈ (uploadParts home root sanitize path false fs parts).2.2 →
      ∀ q ∈ opPaths op, whitelistOk home q = true := by
  intro parts
  induction parts with
  | nil =>
    intro _ fs op hop
    simp [uploadParts] at hop
  | cons p ps ih =>
    intro hrand fs op hop
    have hrp : p.rand.head? ≠ some '/' := hrand p (List.mem_cons_self p ps)
    have hrs : ∀ q ∈ ps, q.rand.head? ≠ some '/' :=
      fun q hq => hrand q (List.mem_cons_of_mem p hq)
    have hchar := uploadTarget_char home root hhome sanitize hsan fs path p hrp
    unfold uploadParts at hop
    split at hop
    · rename_i e tr heq
      exact hchar.1 op (by rw [heq]; exact hop)
    · rename_i fp tr heq
      have htr : ∀ op2 ∈ tr, ∀ q ∈ opPaths op2, whitelistOk home q = true :=
        fun op2 h2 => hchar.1 op2 (by rw [heq]; exact h2)
      have hfp : whitelistOk home fp = true :=
        hchar.2 fp (by rw [heq])
      split at hop
      · exact htr op hop
      · split at hop
        · rw [List.mem_append] at hop
          rcases hop with h1 | h1
          · exact htr op h1
          · simp at h1
            subst h1
            intro q hq
            simp [opPaths] at hq
            subst hq
            exact hfp
        · split at hop
          · rename_i u fs2 tr2 heq2
            split at hop
            · rename_i r0 fs3 tr3 heq3
              simp only [List.mem_append, List.mem_cons] at hop
              rcases hop with h1 | h1 | h1
              · exact htr op h1
              · subst h1
                intro q hq
                simp [opPaths] at hq
                subst hq
                exact hfp
              · rcases h1 with h1 | h1
                · have hrc := trace_wl_runChunks
                    (fsSet fs (canon fp) (FNode.file [])) fp p.chunks op
                    (by rw [heq2]; exact h1)
                  subst hrc
                  intro q hq
                  simp [opPaths] at hq
                  subst hq
                  exact hfp
                · exact ih hrs fs2 op (by rw [heq3]; exact h1) 
          · rename_i e fs2 tr2 heq2
            simp only [List.mem_append, List.mem_cons] at hop
            rcases hop with h1 | h1 | h1
            · exact htr op h1
            · subst h1
              intro q hq
              simp [opPaths] at hq
              subst hq
              exact hfp
            · have hrc := trace_wl_runChunks
                (fsSet fs (canon fp) (FNode.file [])) fp p.chunks op
                (by rw [heq2]; exact h1)
              subst hrc
              intro q hq
              simp [opPaths] at hq
              subst hq
              exact hfp


theorem resolveAux_ne_nil (cs : List Str) : ∀ (acc : List Str),
    acc.getLast? = some rootMarker → resolveAux acc cs ≠ [] := by
  induction cs with
  | nil =>
    intro acc h
    have hne : acc ≠ [] := by
      intro hc
      rw [hc] at h
      simp at h
    simpa [resolveAux] using hne
  | cons c cs ih =>
    intro acc h
    obtain ⟨t, ts, rfl⟩ : ∃ t ts, acc = t :: ts := by
      cases acc with
      | nil => simp at h
      | cons t ts => exact ⟨t, ts, rfl⟩
    by_cases hdd : c = dotdot
    · subst hdd
      rw [show resolveAux (t :: ts) (dotdot :: cs)
          = if t = rootMarker then resolveAux (t :: ts) cs else resolveAux ts cs
          from rfl]
      by_cases ht : t = rootMarker
      · rw [if_pos ht]
        exact ih (t :: ts) h
      · rw [if_neg ht]
        cases ts with
        | nil =>
          simp [List.getLast?] at h
          exact absurd h ht
        | cons u us =>
          exact ih (u :: us) (by rw [List.getLast?_cons_cons] at h; exact h)
    · by_cases hdot : c = ['.']
      · subst hdot
        rw [show resolveAux (t :: ts) (['.'] :: cs) = resolveAux (t :: ts) cs
            from rfl]
        exact ih (t :: ts) h
      · unfold resolveAux
        rw [if_neg hdd, if_neg hdot]
        exact ih (c :: t :: ts) (by rw [List.getLast?_cons_cons]; exact h)

theorem canon_ne_nil (p : Str) (hp : p.head? = some '/') : canon p ≠ [] := by
  unfold canon resolveComps
  rw [pathComps_abs_eq p hp]
  rw [show resolveAux [] (rootMarker :: relPieces p)
      = resolveAux [rootMarker] (relPieces p) from rfl]
  exact resolveAux_ne_nil (relPieces p) [rootMarker] rfl

theorem childEntries_name (fs : FS)
    (hfs : ∀ e ∈ fs, e.1.dropLast ≠ [] →
      ∀ nm, e.1.getLast? = some nm → nm ≠ [] ∧ '/' ∉ nm)
    (k : List Str) (hk : k ≠ []) (en : Str × FNode)
    (hen : en ∈ childEntries fs k) :
    en.1.head? ≠ some '/' := by
  unfold childEntries at hen
  obtain ⟨e, he, hsome⟩ := List.mem_filterMap.mp hen
  split at hsome
  · rename_i nm hlast
    split at hsome
    · rename_i hdrop
      simp only [Option.some.injEq] at hsome
      have hprop := hfs e he (by rw [hdrop]; exact hk) nm hlast
      subst hsome
      show nm.head? ≠ some '/'
      obtain ⟨c, cs, rfl⟩ : ∃ c cs, nm = c :: cs := by
        cases nm with
        | nil => exact absurd rfl hprop.1
        | cons c cs => exact ⟨c, cs, rfl⟩
      simp only [List.head?, ne_eq, Option.some.injEq]
      intro hcon
      exact hprop.2 (by rw [← hcon]; exact List.mem_cons_self c cs)
    · simp at hsome
  · simp at hsome

theorem trace_wl_browser (home root : Str) (hhome : home.head? = some '/')
    (hroot : whitelistOk home root = true)
    (exts : List Str) (fileExt : Str → Option Str)
    (probe : Str → Except Str ProbeFmt) (parseDur : Str → Option ℚ)
    (fs : FS)
    (hfs : ∀ e ∈ fs, e.1.dropLast ≠ [] →
      ∀ nm, e.1.getLast? = some nm → nm ≠ [] ∧ '/' ∉ nm)
    (src : Str) (foldersOnly : Bool) (op : FsOp)
    (hop : op ∈ (browser home root exts fileExt probe parseDur fs src foldersOnly).2) :
    ∀ q ∈ opPaths op, whitelistOk home q = true := by
  unfold browser at hop
  split at hop
  · simp at hop
  · rename_i d heq
    obtain ⟨dp, dpp, dpc, dsfx, drpf, drf, drfi, dtr⟩ := d
    simp only [browserPre] at heq
    split at heq
    · exact absurd heq (by simp)
    · rename_i path sfx pc heqn
      have hwl := whitelistOk_of_norm home root src path sfx pc heqn
      obtain ⟨hp1, hp2, hp3⟩ := norm_ok_decomp home root src path sfx pc heqn
      have hpp : whitelistOk home
          (if pc = [] then root else (parentStr path).getD []) = true := by
        split
        · exact hroot
        · rename_i hne
          have hshape := nasRemainder_shape root src
          rw [← hp3] at hshape
          rw [hp1]
          exact whitelistOk_parentStr home root pc hhome hroot
            (shape_head_ne_slash pc hshape) (relPieces_of_shape pc hne hshape)
      generalize hgpp : (if pc = [] then root else (parentStr path).getD []) = pp at heq
      rw [hgpp] at hpp
      split at heq
      · exact absurd heq (by simp)
      · split at heq
        · exact absurd heq (by simp)
        · rename_i hdir
          simp only [Except.ok.injEq, BrowseData.mk.injEq] at heq
          obtain ⟨h1, h2, h3, h4, h5, h6, h7, h8⟩ := heq
          rw [← h8, ← h7] at hop
          rw [List.mem_append] at hop
          rcases hop with h1m | h2m
          · rw [List.mem_append] at h1m
            rcases h1m with ha | hb
            · split at ha
              · simp at ha
                subst ha
                intro q hq
                simp [opPaths] at hq
                subst hq
                exact hpp
              · simp at ha
            · simp at hb
              subst hb
              intro q hq
              simp [opPaths] at hq
              subst hq
              exact hwl
          · obtain ⟨fp, hfp, rfl⟩ := List.mem_map.mp h2m
            have hfp2 : fp ∈ (((childEntries fs (canon path)).filter (fun en =>
                !strInfix (str "/.") (pathJoin path en.1))).filterMap (fun en =>
                  match en.2 with
                  | FNode.file _ =>
                    if !foldersOnly && extOk exts fileExt (pathJoin path en.1) then
                      some (pathJoin path en.1)
                    else none
                  | _ => none)) := (mem_sortNat fp _).mp hfp
            obtain ⟨en, hen, hsome⟩ := List.mem_filterMap.mp hfp2
            have henc : en ∈ childEntries fs (canon path) :=
              (List.mem_filter.mp hen).1
            have hname := childEntries_name fs hfs (canon path)
              (canon_ne_nil path (abs_of_whitelistOk home path hhome hwl)) en henc
            split at hsome
            · split at hsome
              · simp only [Option.some.injEq] at hsome
                subst hsome
                intro q hq
                simp [opPaths] at hq
                subst hq
                exact whitelistOk_pathJoin home path en.1 hhome hwl hname
              · simp at hsome
            · simp at hsome


/-- C4 counterexample: `upload` with `abs_path = true` uses the
caller-supplied destination verbatim, bypassing `norm_abs_path`: with home
`/home/user` and channel root `/media`, a caller path `/etc/evil` is created
and written outside every allow-listed folder, and the call succeeds. -/
theorem c4_counterexample :
    (upload (str "/home/user") (str "/media") id (str "/etc/evil") true
        [⟨none, str "x", []⟩] [(canon (str "/etc"), FNode.dir)]).1
      = Except.ok ()
    ∧ FsOp.createFile (str "/etc/evil") ∈
        (upload (str "/home/user") (str "/media") id (str "/etc/evil") true
          [⟨none, str "x", []⟩] [(canon (str "/etc"), FNode.dir)]).2.2
    ∧ whitelistOk (str "/home/user") (str "/etc/evil") = false
    ∧ fsIsFile
        (upload (str "/home/user") (str "/media") id (str "/etc/evil") true
          [⟨none, str "x", []⟩] [(canon (str "/etc"), FNode.dir)]).2.1
        (str "/etc/evil") = true := by
  decide

/-- C4 (amended): every filesystem path that `browser`, `create_directory`,
`rename_file`, `remove_file_or_folder` or `upload` without `abs_path` reads
or mutates lies under the allow-list (it passed through `norm_abs_path`, or
is the sandboxed parent directory, a child of a sandboxed directory, or a
sandboxed path joined with a slash-free file name), provided the home
directory is absolute, the configured root is itself allow-listed, stored
file names contain no slash, the sanitizer returns relative names and the
generated random names are relative.  `upload` with `abs_path = true` is the
exception recorded by the counterexample: it uses the caller path
verbatim. -/
theorem c4_amended (home root : Str) (hhome : home.head? = some '/')
    (hroot : whitelistOk home root = true)
    (fs : FS)
    (hfs : ∀ e ∈ fs, e.1.dropLast ≠ [] →
      ∀ nm, e.1.getLast? = some nm → nm ≠ [] ∧ '/' ∉ nm)
    (input src s t : Str) (rf : Str → Str → Bool)
    (exts : List Str) (fileExt : Str → Option Str)
    (probe : Str → Except Str ProbeFmt) (parseDur : Str → Option ℚ)
    (foldersOnly : Bool)
    (sanitize : Str → Str) (hsan : ∀ f, (sanitize f).head? ≠ some '/')
    (path : Str) (parts : List UploadPart)
    (hrand : ∀ p ∈ parts, p.rand.head? ≠ some '/') :
    (∀ op ∈ (createDirectory home root input fs).2.2,
      ∀ q ∈ opPaths op, whitelistOk home q = true)
    ∧ (∀ op ∈ (removeFileOrFolder home root input fs).2.2,
      ∀ q ∈ opPaths op, whitelistOk home q = true)
    ∧ (∀ op ∈ (renameFile home root rf s t fs).2.2,
      ∀ q ∈ opPaths op, whitelistOk home q = true)
    ∧ (∀ op ∈ (browser home root exts fileExt probe parseDur fs src
        foldersOnly).2,
      ∀ q ∈ opPaths op, whitelistOk home q = true)
    ∧ (∀ op ∈ (upload home root sanitize path false parts fs).2.2,
      ∀ q ∈ opPaths op, whitelistOk home q = true) :=
  ⟨fun op hop => trace_wl_createDirectory home root input fs op hop,
    fun op hop => trace_wl_remove home root input fs op hop,
    fun op hop => trace_wl_rename home root hhome rf s t fs op hop,
    fun op hop => trace_wl_browser home root hhome hroot exts fileExt probe
      parseDur fs hfs src foldersOnly op hop,
    fun op hop => trace_wl_uploadParts home root hhome sanitize path hsan
      parts hrand fs op hop⟩

/-- C4 witness: the amended sandbox invariant at a concrete channel
(home `/home/user`, root `/media`, a filesystem holding the root
directory). -/
theorem c4_amended_witness :
    (∀ op ∈ (createDirectory (str "/home/user") (str "/media") (str "clips")
        [(canon (str "/media"), FNode.dir)]).2.2,
      ∀ q ∈ opPaths op, whitelistOk (str "/home/user") q = true)
    ∧ (∀ op ∈ (removeFileOrFolder (str "/home/user") (str "/media")
        (str "clips") [(canon (str "/media"), FNode.dir)]).2.2,
      ∀ q ∈ opPaths op, whitelistOk (str "/home/user") q = true)
    ∧ (∀ op ∈ (renameFile (str "/home/user") (str "/media")
        (fun _ _ => false) (str "a.mp4") (str "b.mp4")
        [(canon (str "/media"), FNode.dir)]).2.2,
      ∀ q ∈ opPaths op, whitelistOk (str "/home/user") q = true)
    ∧ (∀ op ∈ (browser (str "/home/user") (str "/media") [str "mp4"]
        (fun _ => none) (fun _ => Except.error (str "x")) (fun _ => none)
        [(canon (str "/media"), FNode.dir)] (str "") false).2,
      ∀ q ∈ opPaths op, whitelistOk (str "/home/user") q = true)
    ∧ (∀ op ∈ (upload (str "/home/user") (str "/media")
        (fun _ => str "file") (str "clips") false []
        [(canon (str "/media"), FNode.dir)]).2.2,
      ∀ q ∈ opPaths op, whitelistOk (str "/home/user") q = true) :=
  c4_amended (str "/home/user") (str "/media") (by decide) (by decide)
    [(canon (str "/media"), FNode.dir)] (by decide)
    (str "clips") (str "") (str "a.mp4") (str "b.mp4") (fun _ _ => false)
    [str "mp4"] (fun _ => none) (fun _ => Except.error (str "x"))
    (fun _ => none) false (fun _ => str "file")
    (fun _ => by
      show (str "file").head? ≠ some '/'
      decide)
    (str "clips") [] (by decide)

end FF
